import Mathlib

/-!
# Rukaab Cafe Management System: order pipeline and order store

A shallow embedding of `src/Rukabscafe.cpp`.

Modelling conventions

* `double` amounts are rationals (`ℚ`). The functions of the order pipeline
  compute them exactly, the literal `0.13` being `13 / 100`. What is stated of
  the stored tax depends on binary rounding, and is stated of
  `calculateOrderTotal64`, the same lines with every operation rounded to
  binary64 (`fl64`); on whole line amounts below `2 ^ 53` the two subtotals
  agree (`calculateOrderTotal64_subtotal`).
* `int` values are `Int`. What `getValidInt` returns lies in the 32-bit range;
  the only `int` arithmetic that can leave that range is `nextOrderId++`,
  which wraps (`wrapInt`).
* `cin` is the list of characters the operator still has to supply. A function
  that reads returns `none` when the program would never return an answer:
  it waits on exhausted input for ever, or it reads an indeterminate variable.
* Console output (`cout`, colours, `Sleep`, `cls`) is not part of the state.
* `time(0)`, the time zone conversion behind `localtime`, `ctime` and the
  stream formatting of a `double` belong to the C/C++ library, not to the
  program; they are parameters. The one `struct tm` that `localtime` fills is
  library state and is passed explicitly (`TmMemory`).
-/

namespace RukaabCafe

/-! ## Data structures (lines 75-94, 162-185) -/

structure OrderItem where
  type : String
  name : String
  quantity : Int
  price : ℚ
  details : List String
  deriving DecidableEq, Repr

structure Order where
  orderId : Int
  customerName : String
  orderTime : Int
  items : List OrderItem
  subtotal : ℚ
  tax : ℚ
  donation : ℚ
  total : ℚ
  paymentMethod : String
  isPaid : Bool
  deriving DecidableEq, Repr

structure MenuItem where
  category : String
  name : String
  description : String
  price : ℚ
  options : List String
  deriving DecidableEq, Repr

def scoops : List String := ["Single Scoop", "Double Scoop", "Triple Scoop"]

def sizes : List String := ["Small", "Medium", "Large"]

/-- The catalogue, `RukaabCafe::menu` (lines 170-180). -/
def menu : List MenuItem :=
  [ ⟨"Ice Cream", "Chocolate Dream", "Rich chocolate ice cream", 100, scoops⟩,
    ⟨"Ice Cream", "Vanilla Bliss", "Classic vanilla ice cream", 100, scoops⟩,
    ⟨"Ice Cream", "Strawberry Fields", "Fresh strawberry ice cream", 120, scoops⟩,
    ⟨"Ice Cream", "Mango Tango", "Tropical mango delight", 120, scoops⟩,
    ⟨"Shakes", "Chocolate Shake", "Rich chocolate milkshake", 250, sizes⟩,
    ⟨"Shakes", "Strawberry Shake", "Creamy strawberry milkshake", 250, sizes⟩,
    ⟨"Desserts", "Rukaab Brownie", "Special brownie with nuts", 300, ["Plain", "With Ice Cream"]⟩,
    ⟨"Beverages", "Coffee", "Hot/Cold coffee", 150, ["Hot", "Cold"]⟩,
    ⟨"Beverages", "Karak Chai", "Special strong tea", 100, ["Regular", "Masala"]⟩ ]

/-- The topping labels, `RukaabCafe::toppings` (lines 182-185). -/
def toppings : List String :=
  [ "Chocolate Syrup (Rs.20)", "Strawberry Syrup (Rs.20)", "Caramel (Rs.25)",
    "Oreo Crumbles (Rs.30)", "Almonds (Rs.30)", "Whipped Cream (Rs.25)", "No Topping" ]

/-! ## 32-bit `int` -/

def INT_MAX : Int := 2147483647

def INT_MIN : Int := -2147483648

/-- Two's complement wrap of an integer into the range of a 32-bit `int`. -/
def wrapInt (x : Int) : Int := (x + 2147483648) % 4294967296 - 2147483648

/-! ## The console input stream -/

/-- The characters still to be read from `cin`. -/
abbrev Cin := List Char

/-- The whitespace of the C locale, skipped by formatted extraction:
    space, `\t`, `\n`, `\v`, `\f`, `\r`. -/
def isspace (c : Char) : Bool :=
  c.toNat = 32 || (9 ≤ c.toNat && c.toNat ≤ 13)

def isdigit (c : Char) : Bool := 48 ≤ c.toNat && c.toNat ≤ 57

/-- Value of a run of decimal digits. -/
def digitsValue (ds : List Char) : Nat :=
  ds.foldl (fun acc d => 10 * acc + (d.toNat - 48)) 0

/-- Splits an optional sign off the front of an integer field. -/
def takeSign : Cin → Bool × Cin
  | c :: rest => if c.toNat = 45 then (true, rest) else if c.toNat = 43 then (false, rest) else (false, c :: rest)
  | [] => (false, [])

/-- `cin >> x` for an `int x`: skip whitespace, read an optional sign and the
    digits that follow. The extraction fails (first component `none`) when
    there is no digit or when the value does not fit an `int`; the characters
    of the field are consumed either way. -/
def extractInt (s : Cin) : Option Int × Cin :=
  let s1 := s.dropWhile isspace
  let (neg, s2) := takeSign s1
  let ds := s2.takeWhile isdigit
  let rest := s2.dropWhile isdigit
  if ds.isEmpty then (none, rest)
  else
    let v : Int := if neg then -(digitsValue ds : Int) else (digitsValue ds : Int)
    if INT_MIN ≤ v ∧ v ≤ INT_MAX then (some v, rest) else (none, rest)

/-- `cin.ignore(numeric_limits<streamsize>::max(), '\n')`: discard the input up to
    and including the next newline. -/
def ignoreLine (s : Cin) : Cin := (s.dropWhile (fun c => c.toNat ≠ 10)).drop 1

/-- The loop of `getValidInt` (lines 27-31), `fuel` bounding the number of attempts.
    After a failed extraction on exhausted input every later attempt fails
    too, so the loop never ends: `none`. -/
def getValidIntAux : Nat → Cin → Option (Int × Cin)
  | 0, _ => none
  | fuel + 1, s =>
    match extractInt s with
    | (some x, rest) => some (x, rest)
    | (none, rest) => if rest.isEmpty then none else getValidIntAux fuel (ignoreLine rest)

/-- `getValidInt` (lines 25-33). Every failed attempt on non-empty input
    discards at least one character, so `s.length + 1` attempts are enough
    (`getValidIntAux_fuel`). -/
def getValidInt (s : Cin) : Option (Int × Cin) := getValidIntAux (s.length + 1) s

/-- `cin >> c` for a `char c`: skip whitespace and take one character. On
    exhausted input nothing is stored in `c`. -/
def extractChar (s : Cin) : Option (Char × Cin) :=
  match s.dropWhile isspace with
  | [] => none
  | c :: rest => some (c, rest)

/-- `getline(cin, str)`: the text before the next newline; the newline is
    discarded. -/
def getline (s : Cin) : String × Cin :=
  (String.mk (s.takeWhile (fun c => c.toNat ≠ 10)), (s.dropWhile (fun c => c.toNat ≠ 10)).drop 1)

/-! ## Pricing (lines 332-364) -/

/-- `RukaabCafe::calculateOrderTotal` (lines 332-340). -/
def calculateOrderTotal (order : Order) : Order :=
  let subtotal := order.items.foldl (fun acc item => acc + item.price * (item.quantity : ℚ)) 0
  let tax := subtotal * (13 / 100)
  { order with subtotal := subtotal, tax := tax, donation := 0, total := subtotal + tax }

/-- `RukaabCafe::askDonation` (lines 342-353). `none`: the answer never
    arrives and `choice` is read indeterminate. -/
def askDonation (order : Order) (s : Cin) : Option (Order × Cin) :=
  match extractChar s with
  | none => none
  | some (choice, rest) =>
    if choice = 'y' ∨ choice = 'Y' then
      some ({ order with donation := 100, total := order.total + 100 }, rest)
    else some (order, rest)

/-- `RukaabCafe::selectPaymentMethod` (lines 355-364). -/
def selectPaymentMethod (order : Order) (s : Cin) : Option (Order × Cin) :=
  match getValidInt s with
  | none => none
  | some (choice, rest) =>
    let order :=
      if choice = 1 then { order with paymentMethod := "Cash" }
      else if choice = 2 then { order with paymentMethod := "Card" }
      else { order with paymentMethod := "Online" }
    some ({ order with isPaid := true }, rest)

/-! ## Taking an order (lines 257-320) -/

/-- One pass of the body of the `do ... while` loop of `takeOrder`
    (lines 272-312): the add-item step. `addMore` is `none` while the variable
    is still indeterminate. The result is the draft order, `addMore` and the
    input left; `none` when an answer never arrives. An invalid selection
    leaves through `continue`, before `addMore` is read. -/
def takeOrderStep (order : Order) (addMore : Option Char) (s : Cin) :
    Option (Order × Option Char × Cin) := do
  let (choice, s) ← getValidInt s
  if choice < 1 ∨ choice > (menu.length : Int) then
    pure (order, addMore, s)
  else
    let selected ← menu[(choice - 1).toNat]?
    let item : OrderItem :=
      { type := selected.category, name := selected.name, quantity := 0,
        price := selected.price, details := [] }
    let (quantity, s) ← getValidInt s
    let item := { item with quantity := quantity }
    let (item, s) ←
      if selected.category = "Ice Cream" ∧ ¬ selected.options.isEmpty then do
        let (sizeChoice, s) ← getValidInt s
        let item :=
          if sizeChoice > 0 ∧ sizeChoice ≤ (selected.options.length : Int) then
            { item with details := item.details ++ [selected.options.getD (sizeChoice - 1).toNat ""] }
          else item
        let (topChoice, s) ← getValidInt s
        let item :=
          if topChoice > 0 ∧ topChoice ≤ (toppings.length : Int) then
            { item with details := item.details ++ [toppings.getD (topChoice - 1).toNat ""] }
          else item
        pure (item, s)
      else pure (item, s)
    let order := { order with items := order.items ++ [item] }
    let (c, s) ← extractChar s
    pure (order, some c, s)

/-- The `do ... while (addMore == 'y' || addMore == 'Y')` loop of `takeOrder`
    (lines 271-314). Testing an `addMore` that was never assigned (an invalid
    selection in the very first pass) has no defined result: `none`. -/
def takeOrderLoop : Nat → Order → Option Char → Cin → Option (Order × Cin)
  | 0, _, _, _ => none
  | fuel + 1, order, addMore, s =>
    match takeOrderStep order addMore s with
    | none => none
    | some (_, none, _) => none
    | some (order, some c, s) =>
      if c = 'y' ∨ c = 'Y' then takeOrderLoop fuel order (some c) s else some (order, s)

/-! ## The order store (lines 97-152) -/

structure Database where
  orders : List Order
  nextOrderId : Int
  deriving DecidableEq, Repr

/-- `Database::Database()` (lines 103-106). -/
def Database.init : Database := { orders := [], nextOrderId := 1001 }

/-- `Database::getNextOrderId` (line 135): the value before the increment, and
    the store after it. -/
def Database.getNextOrderId (db : Database) : Int × Database :=
  (db.nextOrderId, { db with nextOrderId := wrapInt (db.nextOrderId + 1) })

/-- `Database::getOrders` (line 133). -/
def Database.getOrders (db : Database) : List Order := db.orders

/-- The file `orders.txt` as `saveOrder` sees it: whether
    `ofstream file("orders.txt", ios::app)` opens, and the text in the file. -/
structure Disk where
  canAppend : Bool
  ordersTxt : String
  deriving DecidableEq, Repr

/-- Library formatting used by `saveOrder`: `ctime` (a null pointer is `none`)
    and `operator<<` for a `double`. -/
structure Format where
  ctime : Int → Option String
  showDouble : ℚ → String

/-- The record block `saveOrder` writes for an order (lines 113-128). -/
def orderRecord (fmt : Format) (order : Order) : String :=
  "Order ID: " ++ toString order.orderId ++ "\n"
  ++ "Customer: " ++ order.customerName ++ "\n"
  ++ "Time: " ++ (fmt.ctime order.orderTime).getD "N/A"
  ++ "Items:\n"
  ++ order.items.foldl
      (fun out item => out ++ "  - " ++ item.name ++ " x" ++ toString item.quantity
        ++ " @ Rs." ++ fmt.showDouble item.price ++ "\n") ""
  ++ "Subtotal: Rs." ++ fmt.showDouble order.subtotal ++ "\n"
  ++ "Tax: Rs." ++ fmt.showDouble order.tax ++ "\n"
  ++ "Donation: Rs." ++ fmt.showDouble order.donation ++ "\n"
  ++ "Total: Rs." ++ fmt.showDouble order.total ++ "\n"
  ++ "Payment: " ++ order.paymentMethod ++ "\n"
  ++ "Status: " ++ (if order.isPaid then "Paid" else "Pending") ++ "\n"
  ++ String.mk (List.replicate 40 '-') ++ "\n"

/-- `Database::saveOrder` (lines 108-131). -/
def Database.saveOrder (fmt : Format) (db : Database) (disk : Disk) (order : Order) :
    Database × Disk :=
  let db := { db with orders := db.orders ++ [order] }
  if disk.canAppend then
    (db, { disk with ordersTxt := disk.ordersTxt ++ orderRecord fmt order })
  else (db, disk)

/-- The fields of `struct tm` that the program reads. -/
structure Tm where
  tm_year : Int
  tm_mon : Int
  tm_mday : Int
  deriving DecidableEq, Repr

/-- Address of a `struct tm` object. -/
abbrev TmPtr := Nat

/-- The `struct tm` objects in memory, by address. -/
abbrev TmMemory := TmPtr → Tm

/-- Address of the one `struct tm` object that the C library owns. -/
def tmStatic : TmPtr := 0

/-- The C library's `localtime`: it converts `t` (by `zone`, the time zone of
    the process) into the library's own statically allocated `struct tm`
    and returns the address of that object. The Microsoft runtime that
    `windows.h` implies, glibc and musl all use a single structure (per
    thread), so each call destroys the result of the call before it. -/
def localtime (zone : Int → Tm) (t : Int) (mem : TmMemory) : TmPtr × TmMemory :=
  (tmStatic, fun p => if p = tmStatic then zone t else mem p)

/-- `Database::getDailyRevenue` (lines 137-151); `now` is the value of
    `time(0)`. `today` and `orderTime` are pointers, read through the memory
    as it is when the comparison runs. The result is the revenue and the
    memory the calls of `localtime` leave behind. -/
def Database.getDailyRevenue (zone : Int → Tm) (db : Database) (now : Int) (mem : TmMemory) :
    ℚ × TmMemory :=
  let (today, mem) := localtime zone now mem
  db.orders.foldl
    (fun (acc : ℚ × TmMemory) order =>
      let (orderTime, mem) := localtime zone order.orderTime acc.2
      if (mem orderTime).tm_year = (mem today).tm_year ∧
         (mem orderTime).tm_mon = (mem today).tm_mon ∧
         (mem orderTime).tm_mday = (mem today).tm_mday then
        (acc.1 + order.total, mem)
      else (acc.1, mem))
    ((0 : ℚ), mem)

/-- The end of `takeOrder` (lines 316-318): `calculateOrderTotal`, then
    `askDonation`, then `selectPaymentMethod`. -/
def finishOrder (order : Order) (s : Cin) : Option (Order × Cin) :=
  match askDonation (calculateOrderTotal order) s with
  | none => none
  | some (order, s) => selectPaymentMethod order s

/-- Round half-up to two decimal places, as section 4.3 and section 8 of the
    specification word it (`round(x, 2)`); the program has no such function. -/
def roundHalfUp2 (x : ℚ) : ℚ := (⌊x * 100 + 1 / 2⌋ : ℤ) / 100

/-- `RukaabCafe::takeOrder` (lines 257-320); `now` is the value of `time(0)`.
    The amounts of a fresh `Order` are indeterminate until
    `calculateOrderTotal` assigns them; they stand as `0` here. Each pass of
    the loop that returns consumes input, so `s.length + 1` passes are
    enough. -/
def takeOrder (db : Database) (now : Int) (s : Cin) : Option (Order × Database × Cin) :=
  let (id, db) := db.getNextOrderId
  let order : Order :=
    { orderId := id, customerName := "", orderTime := now, items := [],
      subtotal := 0, tax := 0, donation := 0, total := 0, paymentMethod := "", isPaid := false }
  let s := s.drop 1
  let (name, s) := getline s
  let order := { order with customerName := name }
  match takeOrderLoop (s.length + 1) order none s with
  | none => none
  | some (order, s) =>
    match finishOrder order s with
    | none => none
    | some (order, s) => some (order, db, s)

/-! ## Clients of the order store -/

/-- A call on the order store. -/
inductive StoreCall where
  | getNextOrderId
  | saveOrder (order : Order)
  | getDailyRevenue (now : Int)

/-- What a sequence of store calls leaves: the ids that the `getNextOrderId`
    calls returned and the revenues that the `getDailyRevenue` calls returned,
    each in call order, and the final store, file and library memory. -/
structure StoreRun where
  ids : List Int
  revenues : List ℚ
  db : Database
  disk : Disk
  mem : TmMemory

/-- Runs a sequence of store calls, in order, on a store, its file and the
    library memory. -/
def runCalls (fmt : Format) (zone : Int → Tm) :
    List StoreCall → Database → Disk → TmMemory → StoreRun
  | [], db, disk, mem => { ids := [], revenues := [], db := db, disk := disk, mem := mem }
  | StoreCall.getNextOrderId :: rest, db, disk, mem =>
    let (id, db) := db.getNextOrderId
    let run := runCalls fmt zone rest db disk mem
    { run with ids := id :: run.ids }
  | StoreCall.saveOrder order :: rest, db, disk, mem =>
    let (db, disk) := db.saveOrder fmt disk order
    runCalls fmt zone rest db disk mem
  | StoreCall.getDailyRevenue now :: rest, db, disk, mem =>
    let (revenue, mem) := db.getDailyRevenue zone now mem
    let run := runCalls fmt zone rest db disk mem
    { run with revenues := revenue :: run.revenues }

/-- An instance of the time zone conversion: UTC, by the usual
    days-to-civil-date arithmetic (`tm_year` counts from 1900, `tm_mon` from 0). -/
def utcZone (t : Int) : Tm :=
  let z := t / 86400 + 719468
  let era := z / 146097
  let doe := z - era * 146097
  let yoe := (doe - doe / 1460 + doe / 36524 - doe / 146096) / 365
  let doy := doe - (365 * yoe + yoe / 4 - yoe / 100)
  let mp := (5 * doy + 2) / 153
  let d := doy - (153 * mp + 2) / 5 + 1
  let m := if mp < 10 then mp + 3 else mp - 9
  let y := yoe + era * 400 + (if m ≤ 2 then 1 else 0)
  { tm_year := y - 1900, tm_mon := m - 1, tm_mday := d }

/-- The daily revenue as section 4.4 of the specification words it: the sum of
    `total` over the stored orders whose creation day, in local time, is the
    calendar day of the reference time. -/
def dailyRevenueSpec (zone : Int → Tm) (orders : List Order) (now : Int) : ℚ :=
  ((orders.filter (fun order =>
      (zone order.orderTime).tm_year = (zone now).tm_year ∧
      (zone order.orderTime).tm_mon = (zone now).tm_mon ∧
      (zone order.orderTime).tm_mday = (zone now).tm_mday)).map (fun order => order.total)).sum

/-! ## The quantity answers of a run -/

/-- The quantity answer of a pass of the loop of `takeOrder` that starts on
    input `s`: the value `getValidInt` returns at the prompt of line 287 to
    288, when the pass gets there (the selection is from 1 to 9). -/
def quantityAnswer (s : Cin) : Option Int :=
  match getValidInt s with
  | none => none
  | some (choice, s1) =>
    if choice < 1 ∨ choice > (menu.length : Int) then none
    else
      match getValidInt s1 with
      | none => none
      | some (quantity, _) => some quantity

/-- The quantity answers of all the passes of the loop of `takeOrder`, in
    order; the passes are those of `takeOrderLoop`. -/
def quantityAnswers : Nat → Order → Option Char → Cin → List Int
  | 0, _, _, _ => []
  | fuel + 1, order, addMore, s =>
    match takeOrderStep order addMore s with
    | none => []
    | some (_, none, _) => (quantityAnswer s).toList
    | some (order, some c, s1) =>
      (quantityAnswer s).toList
        ++ (if c = 'y' ∨ c = 'Y' then quantityAnswers fuel order (some c) s1 else [])

/-! ## Binary floating point -/

/-- Round to the nearest integer, ties to the even one. -/
def roundNearestEven (m : ℚ) : ℤ :=
  if m - ⌊m⌋ < 1 / 2 then ⌊m⌋
  else if 1 / 2 < m - ⌊m⌋ then ⌊m⌋ + 1
  else if ⌊m⌋ % 2 = 0 then ⌊m⌋ else ⌊m⌋ + 1

/-- The `double` (IEEE 754 binary64) that an arithmetic operation stores for
    the exact result `x`: the nearest number with a 53-bit significand, ties
    to even, with the fixed spacing `2 ^ (-1074)` below `2 ^ (-1022)`.
    Overflow to infinity (from `2 ^ 1024` on) is not modelled. -/
def fl64 (x : ℚ) : ℚ :=
  if x = 0 then 0
  else
    let e := max (Int.log 2 |x|) (-1022)
    roundNearestEven (x / (2 : ℚ) ^ (e - 52)) * (2 : ℚ) ^ (e - 52)

/-- `RukaabCafe::calculateOrderTotal` (lines 332-340) as the machine evaluates
    it: every `double` operation stores the binary64 rounding of its exact
    result, and the literal `0.13` is the `double` nearest to 13/100. -/
def calculateOrderTotal64 (order : Order) : Order :=
  let subtotal := order.items.foldl
    (fun acc item => fl64 (acc + fl64 (item.price * (item.quantity : ℚ)))) 0
  let tax := fl64 (subtotal * fl64 (13 / 100))
  { order with subtotal := subtotal, tax := tax, donation := 0, total := fl64 (subtotal + tax) }

/-! ## Pricing: subtotal, tax, donation, total -/

theorem foldl_subtotal (items : List OrderItem) (init : ℚ) :
    items.foldl (fun acc item => acc + item.price * (item.quantity : ℚ)) init
      = init + (items.map (fun item => item.price * (item.quantity : ℚ))).sum := by
  induction items generalizing init with
  | nil => simp
  | cons it rest ih => simp [List.foldl_cons, ih, add_assoc]

theorem calculateOrderTotal_fields (order : Order) :
    (calculateOrderTotal order).subtotal
        = (order.items.map (fun item => item.price * (item.quantity : ℚ))).sum
    ∧ (calculateOrderTotal order).tax = (calculateOrderTotal order).subtotal * (13 / 100)
    ∧ (calculateOrderTotal order).donation = 0
    ∧ (calculateOrderTotal order).total
        = (calculateOrderTotal order).subtotal + (calculateOrderTotal order).tax := by
  simp [calculateOrderTotal, foldl_subtotal]

theorem askDonation_eq (order : Order) (s : Cin) (d : Char) (s1 : Cin)
    (hd : extractChar s = some (d, s1)) :
    askDonation order s
      = some (if d = 'y' ∨ d = 'Y' then
                { order with donation := 100, total := order.total + 100 }
              else order, s1) := by
  unfold askDonation
  rw [hd]
  by_cases h : d = 'y' ∨ d = 'Y' <;> simp [h]

theorem selectPaymentMethod_eq (order : Order) (s : Cin) (choice : Int) (s1 : Cin)
    (hc : getValidInt s = some (choice, s1)) :
    selectPaymentMethod order s
      = some ({ order with
                paymentMethod :=
                  if choice = 1 then "Cash" else if choice = 2 then "Card" else "Online",
                isPaid := true }, s1) := by
  unfold selectPaymentMethod
  rw [hc]
  by_cases h1 : choice = 1
  · simp [h1]
  · by_cases h2 : choice = 2 <;> simp [h1, h2]

/-- C2. `calculateOrderTotal` sets the subtotal to the sum of unit price times
    quantity over all line items, whatever the labels in `details` and
    whatever the order held before; one line of price 100 and quantity 2
    with the donation declined gives subtotal 200, tax 26, total 226. -/
theorem calculateOrderTotal_subtotal (order : Order) :
    (calculateOrderTotal order).subtotal
        = (order.items.map (fun item => item.price * (item.quantity : ℚ))).sum
    ∧ (calculateOrderTotal order).items = order.items
    ∧ (let line : OrderItem := ⟨"Ice Cream", "Chocolate Dream", 2, 100, ["Double Scoop"]⟩
       let draft : Order := ⟨1001, "", 0, [line], 777, 0, 0, 0, "", false⟩
       (calculateOrderTotal draft).subtotal = 200 ∧ (calculateOrderTotal draft).tax = 26 ∧
       (calculateOrderTotal draft).total = 226 ∧
       (askDonation (calculateOrderTotal draft) ['n', '\n']).map
           (fun r => (r.1.subtotal, r.1.tax, r.1.donation, r.1.total))
         = some (200, 26, 0, 226)) := by
  refine ⟨(calculateOrderTotal_fields order).1, rfl, ?_⟩
  have h : extractChar ['n', '\n'] = some ('n', ['\n']) := by rfl
  simp only [askDonation_eq _ _ _ _ h, calculateOrderTotal]
  simp
  norm_num

/-- C9. For every payment choice that `getValidInt` returns,
    `selectPaymentMethod` records "Cash" for 1, "Card" for 2 and "Online" for
    every other integer, sets `isPaid`, and changes nothing else, so the
    method is always one of Cash, Card, Online. -/
theorem selectPaymentMethod_spec (order : Order) (s : Cin) (choice : Int) (s1 : Cin)
    (hc : getValidInt s = some (choice, s1)) :
    ∃ o, selectPaymentMethod order s = some (o, s1)
      ∧ (choice = 1 → o.paymentMethod = "Cash")
      ∧ (choice = 2 → o.paymentMethod = "Card")
      ∧ (choice ≠ 1 → choice ≠ 2 → o.paymentMethod = "Online")
      ∧ o.isPaid = true
      ∧ o.items = order.items ∧ o.subtotal = order.subtotal ∧ o.tax = order.tax
      ∧ o.donation = order.donation ∧ o.total = order.total
      ∧ o.orderId = order.orderId ∧ o.customerName = order.customerName
      ∧ o.orderTime = order.orderTime
      ∧ (o.paymentMethod = "Cash" ∨ o.paymentMethod = "Card" ∨ o.paymentMethod = "Online") := by
  refine ⟨_, selectPaymentMethod_eq order s choice s1 hc, ?_⟩
  by_cases h1 : choice = 1
  · simp [h1]
  · by_cases h2 : choice = 2 <;> simp [h1, h2]

theorem selectPaymentMethod_spec_witness :
    getValidInt ['-', '4', '\n'] = some (-4, ['\n'])
    ∧ ∃ o, selectPaymentMethod
        ⟨1001, "Ali", 0, [⟨"Shakes", "Chocolate Shake", 1, 250, []⟩],
          250, 65 / 2, 0, 565 / 2, "", false⟩ ['-', '4', '\n'] = some (o, ['\n'])
      ∧ ((-4 : Int) = 1 → o.paymentMethod = "Cash")
      ∧ ((-4 : Int) = 2 → o.paymentMethod = "Card")
      ∧ ((-4 : Int) ≠ 1 → (-4 : Int) ≠ 2 → o.paymentMethod = "Online")
      ∧ o.isPaid = true
      ∧ o.items = [⟨"Shakes", "Chocolate Shake", 1, 250, []⟩] ∧ o.subtotal = 250
      ∧ o.tax = 65 / 2 ∧ o.donation = 0 ∧ o.total = 565 / 2
      ∧ o.orderId = 1001 ∧ o.customerName = "Ali" ∧ o.orderTime = 0
      ∧ (o.paymentMethod = "Cash" ∨ o.paymentMethod = "Card" ∨ o.paymentMethod = "Online") :=
  ⟨by rfl, selectPaymentMethod_spec _ _ (-4) ['\n'] (by rfl)⟩

/-! ## Tax and rounding in binary64 -/

theorem roundNearestEven_eq (m : ℚ) (n : ℤ) (h1 : (n : ℚ) - 1 / 2 < m) (h2 : m < n + 1 / 2) :
    roundNearestEven m = n := by
  unfold roundNearestEven
  by_cases hm : (n : ℚ) ≤ m
  · have hfl : ⌊m⌋ = n := by
      rw [Int.floor_eq_iff]
      constructor
      · exact hm
      · linarith
    rw [hfl, if_pos (by linarith)]
  · have hfl : ⌊m⌋ = n - 1 := by
      rw [Int.floor_eq_iff]
      push_cast
      constructor <;> linarith
    rw [hfl]
    push_cast
    rw [if_neg (by linarith), if_pos (by linarith)]
    ring

theorem roundNearestEven_half (m : ℚ) (n : ℤ) (hm : m = n + 1 / 2) :
    roundNearestEven m = if n % 2 = 0 then n else n + 1 := by
  have hfl : ⌊m⌋ = n := by
    rw [Int.floor_eq_iff]
    constructor <;> linarith
  unfold roundNearestEven
  rw [hfl, if_neg (by linarith), if_neg (by linarith)]

theorem roundNearestEven_error (m : ℚ) : |(roundNearestEven m : ℚ) - m| ≤ 1 / 2 := by
  have hlo := Int.floor_le m
  have hhi := Int.lt_floor_add_one m
  unfold roundNearestEven
  rw [abs_le]
  split_ifs with h1 h2 h3
  · constructor <;> linarith
  · push_cast
    constructor <;> linarith
  · constructor <;> linarith
  · push_cast
    constructor <;> linarith

theorem log_two_eq (x : ℚ) (e : ℤ) (hx : 0 < x) (h1 : (2 : ℚ) ^ e ≤ x)
    (h2 : x < (2 : ℚ) ^ (e + 1)) : Int.log 2 x = e := by
  have hle : e ≤ Int.log 2 x := by
    rw [← Int.zpow_le_iff_le_log (by norm_num) hx]
    simpa using h1
  have hlt : Int.log 2 x < e + 1 := by
    rw [← Int.lt_zpow_iff_log_lt (by norm_num) hx]
    simpa using h2
  omega

/-- The rounding of a positive normal value, once its binade is known. -/
theorem fl64_eq_of_bounds (x : ℚ) (e : ℤ) (hx : 0 < x) (h1 : (2 : ℚ) ^ e ≤ x)
    (h2 : x < (2 : ℚ) ^ (e + 1)) (he : -1022 ≤ e) :
    fl64 x = roundNearestEven (x / (2 : ℚ) ^ (e - 52)) * (2 : ℚ) ^ (e - 52) := by
  unfold fl64
  rw [if_neg (ne_of_gt hx), abs_of_pos hx, log_two_eq x e hx h1 h2]
  simp only [max_eq_left he]

/-- Relative error of one rounding: at most `2 ^ (-53)`. -/
theorem fl64_error (x : ℚ) (hx : 0 < x) (hbig : (2 : ℚ) ^ (-1022 : ℤ) ≤ x) :
    |fl64 x - x| ≤ x / 2 ^ 53 := by
  have hlog : -1022 ≤ Int.log 2 x := by
    rw [← Int.zpow_le_iff_le_log (by norm_num) hx]
    simpa using hbig
  have hpow : (2 : ℚ) ^ Int.log 2 x ≤ x := by
    simpa using Int.zpow_log_le_self (b := 2) (by norm_num) hx
  unfold fl64
  rw [if_neg (ne_of_gt hx), abs_of_pos hx]
  simp only [max_eq_left hlog]
  have hu : (0 : ℚ) < (2 : ℚ) ^ (Int.log 2 x - 52) := by positivity
  have hulp : (2 : ℚ) ^ (Int.log 2 x - 52) = (2 : ℚ) ^ Int.log 2 x / 2 ^ 52 := by
    rw [zpow_sub₀ (by norm_num)]
    norm_num
  have herr := roundNearestEven_error (x / (2 : ℚ) ^ (Int.log 2 x - 52))
  have hfac : (roundNearestEven (x / (2 : ℚ) ^ (Int.log 2 x - 52)) : ℚ) * (2 : ℚ) ^ (Int.log 2 x - 52) - x
      = ((roundNearestEven (x / (2 : ℚ) ^ (Int.log 2 x - 52)) : ℚ) - x / (2 : ℚ) ^ (Int.log 2 x - 52))
          * (2 : ℚ) ^ (Int.log 2 x - 52) := by
    field_simp
  rw [hfac, abs_mul, abs_of_pos hu]
  calc |(roundNearestEven (x / (2 : ℚ) ^ (Int.log 2 x - 52)) : ℚ) - x / (2 : ℚ) ^ (Int.log 2 x - 52)|
          * (2 : ℚ) ^ (Int.log 2 x - 52)
      ≤ 1 / 2 * (2 : ℚ) ^ (Int.log 2 x - 52) := by
        exact mul_le_mul_of_nonneg_right herr (le_of_lt hu)
    _ = (2 : ℚ) ^ Int.log 2 x / 2 ^ 53 := by rw [hulp]; ring
    _ ≤ x / 2 ^ 53 := by
        apply div_le_div_of_nonneg_right hpow
        positivity

/-- The `double` literal `0.13`: `0x1.0a3d70a3d70a4p-3`. -/
theorem fl64_literal : fl64 (13 / 100) = 1170935903116329 / 9007199254740992 := by
  rw [fl64_eq_of_bounds (13 / 100) (-3) (by norm_num) (by norm_num) (by norm_num) (by norm_num)]
  rw [roundNearestEven_eq _ 4683743612465316 (by norm_num) (by norm_num)]
  norm_num

/-- Whole numbers below `2 ^ 53` are `double` values. -/
theorem fl64_natCast (n : ℕ) (hn : n < 2 ^ 53) : fl64 (n : ℚ) = n := by
  rcases Nat.eq_zero_or_pos n with h0 | hpos
  · subst h0
    simp [fl64]
  · have hx : (0 : ℚ) < n := by exact_mod_cast hpos
    have hlo : 0 ≤ Int.log 2 (n : ℚ) := by
      rw [← Int.zpow_le_iff_le_log (by norm_num) hx]
      simp only [zpow_zero]
      exact_mod_cast hpos
    have hhi : Int.log 2 (n : ℚ) < 53 := by
      rw [← Int.lt_zpow_iff_log_lt (by norm_num) hx]
      have hn' : (n : ℚ) < 2 ^ 53 := by exact_mod_cast hn
      have h53 : ((2 : ℕ) : ℚ) ^ (53 : ℤ) = 2 ^ 53 := by norm_num
      rw [h53]
      exact hn'
    unfold fl64
    rw [if_neg (ne_of_gt hx), abs_of_pos hx]
    have hmax : max (Int.log 2 (n : ℚ)) (-1022) = Int.log 2 (n : ℚ) := max_eq_left (by omega)
    simp only [hmax]
    obtain ⟨k, hk⟩ : ∃ k : ℕ, Int.log 2 (n : ℚ) - 52 = -(k : ℤ) :=
      ⟨(52 - Int.log 2 (n : ℚ)).toNat, by omega⟩
    rw [hk, zpow_neg, zpow_natCast]
    have hp : (0 : ℚ) < 2 ^ k := by positivity
    have hm : (n : ℚ) / ((2 : ℚ) ^ k)⁻¹ = ((n * 2 ^ k : ℕ) : ℤ) := by
      rw [div_inv_eq_mul]
      push_cast
      ring
    rw [hm, roundNearestEven_eq _ ((n * 2 ^ k : ℕ) : ℤ) (by linarith) (by linarith)]
    push_cast
    field_simp

theorem sum_lines_nonneg (items : List OrderItem)
    (hwhole : ∀ item ∈ items, ∃ n : ℕ, item.price * (item.quantity : ℚ) = n) :
    0 ≤ (items.map (fun item => item.price * (item.quantity : ℚ))).sum := by
  induction items with
  | nil => simp
  | cons it rest ih =>
    obtain ⟨n, hn⟩ := hwhole it (List.mem_cons_self _ _)
    have hrest := ih (fun item hmem => hwhole item (List.mem_cons_of_mem _ hmem))
    have h0 : (0 : ℚ) ≤ n := by positivity
    simp only [List.map_cons, List.sum_cons, hn]
    linarith

theorem foldl64_whole (items : List OrderItem) (acc : ℕ)
    (hwhole : ∀ item ∈ items, ∃ n : ℕ, item.price * (item.quantity : ℚ) = n)
    (hbound : (acc : ℚ) + (items.map (fun item => item.price * (item.quantity : ℚ))).sum
      < 2 ^ 53) :
    items.foldl (fun acc item => fl64 (acc + fl64 (item.price * (item.quantity : ℚ)))) (acc : ℚ)
      = acc + (items.map (fun item => item.price * (item.quantity : ℚ))).sum := by
  induction items generalizing acc with
  | nil => simp
  | cons it rest ih =>
    obtain ⟨n, hn⟩ := hwhole it (List.mem_cons_self _ _)
    have hrest := sum_lines_nonneg rest (fun item hmem => hwhole item (List.mem_cons_of_mem _ hmem))
    simp only [List.map_cons, List.sum_cons, hn] at hbound
    have hacc0 : (0 : ℚ) ≤ acc := by positivity
    have hn0 : (0 : ℚ) ≤ n := by positivity
    have hn53 : n < 2 ^ 53 := by
      have : (n : ℚ) < 2 ^ 53 := by linarith
      exact_mod_cast this
    have hsum53 : acc + n < 2 ^ 53 := by
      have : ((acc + n : ℕ) : ℚ) < 2 ^ 53 := by push_cast; linarith
      exact_mod_cast this
    have hstep : fl64 ((acc : ℚ) + fl64 (n : ℚ)) = ((acc + n : ℕ) : ℚ) := by
      rw [fl64_natCast n hn53]
      have := fl64_natCast (acc + n) hsum53
      push_cast at this ⊢
      exact this
    simp only [List.foldl_cons, List.map_cons, List.sum_cons, hn]
    rw [hstep, ih (acc + n) (fun item hmem => hwhole item (List.mem_cons_of_mem _ hmem))
      (by push_cast; linarith)]
    push_cast
    ring

/-- On whole line amounts that add up to less than `2 ^ 53` the `double`
    subtotal is the exact sum: the two evaluations of the loop agree. -/
theorem calculateOrderTotal64_subtotal (order : Order)
    (hwhole : ∀ item ∈ order.items, ∃ n : ℕ, item.price * (item.quantity : ℚ) = n)
    (hbound : (order.items.map (fun item => item.price * (item.quantity : ℚ))).sum < 2 ^ 53) :
    (calculateOrderTotal64 order).subtotal = (calculateOrderTotal order).subtotal := by
  have h := foldl64_whole order.items 0 hwhole (by simpa using hbound)
  simp only [Nat.cast_zero, zero_add] at h
  simp only [calculateOrderTotal64, calculateOrderTotal, foldl_subtotal, zero_add]
  exact h

theorem calculateOrderTotal64_tax_eq (order : Order) :
    (calculateOrderTotal64 order).tax
      = fl64 ((calculateOrderTotal64 order).subtotal * (1170935903116329 / 9007199254740992)) := by
  simp only [calculateOrderTotal64, fl64_literal]

theorem strawberry_subtotal :
    (calculateOrderTotal64
      ⟨1001, "Ali", 0, [⟨"Ice Cream", "Strawberry Fields", 1, 120, []⟩],
        0, 0, 0, 0, "", false⟩).subtotal = 120 := by
  have h120 : fl64 (120 : ℚ) = 120 := by
    simpa using fl64_natCast 120 (by norm_num)
  simp only [calculateOrderTotal64, List.foldl_cons, List.foldl_nil]
  norm_num [h120]

theorem strawberry_tax :
    (calculateOrderTotal64
      ⟨1001, "Ali", 0, [⟨"Ice Cream", "Strawberry Fields", 1, 120, []⟩],
        0, 0, 0, 0, "", false⟩).tax = 2195504818343117 / 140737488355328 := by
  rw [calculateOrderTotal64_tax_eq, strawberry_subtotal]
  rw [fl64_eq_of_bounds _ 3 (by norm_num) (by norm_num) (by norm_num) (by norm_num)]
  rw [roundNearestEven_half _ 8782019273372467 (by norm_num)]
  norm_num

theorem roundHalfUp2_of_near (t : ℚ) (n : ℤ) (h1 : (n : ℚ) / 100 - 1 / 200 ≤ t)
    (h2 : t < (n : ℚ) / 100 + 1 / 200) : roundHalfUp2 t = (n : ℚ) / 100 := by
  unfold roundHalfUp2
  have hfl : ⌊t * 100 + 1 / 2⌋ = n := by
    rw [Int.floor_eq_iff]
    constructor <;> linarith
  rw [hfl]

/-- The stored tax of a whole subtotal is within `k / 10 ^ 16` of `13 k / 100`. -/
theorem fl64_tax_near (k : ℕ) (hk : k ≤ 10 ^ 12) :
    |fl64 ((k : ℚ) * (1170935903116329 / 9007199254740992)) - 13 * (k : ℚ) / 100|
      ≤ (k : ℚ) / 10 ^ 16 := by
  rcases Nat.eq_zero_or_pos k with h0 | hpos
  · subst h0
    simp [fl64]
  · have hk1 : (1 : ℚ) ≤ k := by exact_mod_cast hpos
    have hx : (0 : ℚ) < (k : ℚ) * (1170935903116329 / 9007199254740992) := by positivity
    have hsmall : (2 : ℚ) ^ (-1022 : ℤ) ≤ (2 : ℚ) ^ (-4 : ℤ) :=
      zpow_le_zpow_right₀ (by norm_num) (by norm_num)
    have hbig : (2 : ℚ) ^ (-1022 : ℤ) ≤ (k : ℚ) * (1170935903116329 / 9007199254740992) := by
      refine le_trans hsmall ?_
      have h4 : (2 : ℚ) ^ (-4 : ℤ) = 1 / 16 := by norm_num
      rw [h4]
      linarith
    have herr := fl64_error _ hx hbig
    rw [abs_le] at herr ⊢
    have h53 : ((2 : ℚ) ^ 53) = 9007199254740992 := by norm_num
    rw [h53] at herr
    have h16 : ((10 : ℚ) ^ 16) = 10000000000000000 := by norm_num
    rw [h16]
    obtain ⟨e1, e2⟩ := herr
    constructor <;> linarith

/-- C3, as stated, fails. One line of Strawberry Fields (unit price 120),
    quantity 1: the subtotal is 120 and the stored tax is the `double`
    `0x1.f333333333334p+3`, about 15.600000000000001. It equals neither 15.6,
    the 2-decimal rounding of 120 * 0.13, nor the `double` nearest to 15.6
    (`0x1.f333333333333p+3`), whether the product that is rounded to 2
    decimals is the exact one or the stored one. -/
theorem calculateOrderTotal64_tax_rounded_counterexample :
    ¬ ∀ order : Order, 0 ≤ (calculateOrderTotal64 order).subtotal →
        (calculateOrderTotal64 order).tax
            = roundHalfUp2 ((calculateOrderTotal64 order).subtotal * (13 / 100))
        ∨ (calculateOrderTotal64 order).tax
            = fl64 (roundHalfUp2 ((calculateOrderTotal64 order).subtotal * (13 / 100)))
        ∨ (calculateOrderTotal64 order).tax = roundHalfUp2 (calculateOrderTotal64 order).tax
        ∨ (calculateOrderTotal64 order).tax
            = fl64 (roundHalfUp2 (calculateOrderTotal64 order).tax) := by
  intro h
  have h1 := h ⟨1001, "Ali", 0, [⟨"Ice Cream", "Strawberry Fields", 1, 120, []⟩],
    0, 0, 0, 0, "", false⟩ (by rw [strawberry_subtotal]; norm_num)
  rw [strawberry_subtotal, strawberry_tax] at h1
  have hr1 : roundHalfUp2 ((120 : ℚ) * (13 / 100)) = 78 / 5 := by
    rw [roundHalfUp2_of_near _ 1560 (by norm_num) (by norm_num)]
    norm_num
  have hr2 : roundHalfUp2 (2195504818343117 / 140737488355328 : ℚ) = 78 / 5 := by
    rw [roundHalfUp2_of_near _ 1560 (by norm_num) (by norm_num)]
    norm_num
  have hfl : fl64 (78 / 5 : ℚ) = 8782019273372467 / 562949953421312 := by
    rw [fl64_eq_of_bounds _ 3 (by norm_num) (by norm_num) (by norm_num) (by norm_num)]
    rw [roundNearestEven_eq _ 8782019273372467 (by norm_num) (by norm_num)]
    norm_num
  rw [hr1, hr2, hfl] at h1
  norm_num at h1

/-- C3, amended. The stored tax is the `double` product of the subtotal and
    the `double` literal `0.13`, computed once and stored as it is: no
    rounding to 2 decimals takes place. For a whole subtotal `k` up to
    `10 ^ 12` the stored tax differs from `13 k / 100` by at most
    `k / 10 ^ 16`, so that rounding it half-up to 2 decimals, as a display
    would, gives `subtotal * 0.13` rounded half-up to 2 decimals. -/
theorem calculateOrderTotal64_tax (order : Order) :
    (calculateOrderTotal64 order).tax
        = fl64 ((calculateOrderTotal64 order).subtotal * fl64 (13 / 100))
    ∧ fl64 (13 / 100) = 1170935903116329 / 9007199254740992
    ∧ (∀ k : ℕ, k ≤ 10 ^ 12 → (calculateOrderTotal64 order).subtotal = (k : ℚ) →
        |(calculateOrderTotal64 order).tax - 13 * (k : ℚ) / 100| ≤ (k : ℚ) / 10 ^ 16
        ∧ roundHalfUp2 (calculateOrderTotal64 order).tax
            = roundHalfUp2 ((calculateOrderTotal64 order).subtotal * (13 / 100))) := by
  refine ⟨rfl, fl64_literal, ?_⟩
  intro k hk hsub
  have hnear := fl64_tax_near k hk
  rw [calculateOrderTotal64_tax_eq, hsub]
  refine ⟨hnear, ?_⟩
  have hkq : (k : ℚ) ≤ 10 ^ 12 := by exact_mod_cast hk
  have hk0 : (0 : ℚ) ≤ k := by positivity
  have h16 : ((10 : ℚ) ^ 16) = 10000000000000000 := by norm_num
  have h12 : ((10 : ℚ) ^ 12) = 1000000000000 := by norm_num
  rw [h16] at hnear
  rw [h12] at hkq
  rw [abs_le] at hnear
  obtain ⟨e1, e2⟩ := hnear
  rw [roundHalfUp2_of_near _ (13 * (k : ℤ)) (by push_cast; linarith) (by push_cast; linarith)]
  rw [roundHalfUp2_of_near _ (13 * (k : ℤ)) (by push_cast; linarith) (by push_cast; linarith)]

theorem calculateOrderTotal64_tax_witness :
    (calculateOrderTotal64
        ⟨1001, "Ali", 0, [⟨"Ice Cream", "Strawberry Fields", 1, 120, []⟩],
          0, 0, 0, 0, "", false⟩).subtotal = ((120 : ℕ) : ℚ)
    ∧ |(calculateOrderTotal64
        ⟨1001, "Ali", 0, [⟨"Ice Cream", "Strawberry Fields", 1, 120, []⟩],
          0, 0, 0, 0, "", false⟩).tax - 13 * ((120 : ℕ) : ℚ) / 100| ≤ ((120 : ℕ) : ℚ) / 10 ^ 16
    ∧ roundHalfUp2 (calculateOrderTotal64
        ⟨1001, "Ali", 0, [⟨"Ice Cream", "Strawberry Fields", 1, 120, []⟩],
          0, 0, 0, 0, "", false⟩).tax
      = roundHalfUp2 ((calculateOrderTotal64
        ⟨1001, "Ali", 0, [⟨"Ice Cream", "Strawberry Fields", 1, 120, []⟩],
          0, 0, 0, 0, "", false⟩).subtotal * (13 / 100)) :=
  ⟨by rw [strawberry_subtotal]; norm_num,
   (calculateOrderTotal64_tax _).2.2 120 (by norm_num) (by rw [strawberry_subtotal]; norm_num)⟩

/-! ## The order store: identifiers -/

theorem wrapInt_range (x : Int) : INT_MIN ≤ wrapInt x ∧ wrapInt x ≤ INT_MAX := by
  unfold wrapInt INT_MIN INT_MAX
  omega

theorem wrapInt_of_range (x : Int) (hlo : INT_MIN ≤ x) (hhi : x ≤ INT_MAX) : wrapInt x = x := by
  unfold wrapInt
  unfold INT_MIN at hlo
  unfold INT_MAX at hhi
  omega

theorem wrapInt_add (x : Int) (i : Int) : wrapInt (wrapInt (x + 1) + i) = wrapInt (x + (i + 1)) := by
  unfold wrapInt
  omega

theorem saveOrder_nextOrderId (fmt : Format) (db : Database) (disk : Disk) (order : Order) :
    (db.saveOrder fmt disk order).1.nextOrderId = db.nextOrderId := by
  unfold Database.saveOrder
  split <;> rfl

/-- The ids issued by any sequence of store calls are the successive wrapped
    values of the counter, whatever is saved or reported in between. -/
theorem runCalls_ids (fmt : Format) (zone : Int → Tm) (calls : List StoreCall) (db : Database)
    (disk : Disk) (mem : TmMemory)
    (hlo : INT_MIN ≤ db.nextOrderId) (hhi : db.nextOrderId ≤ INT_MAX) :
    (runCalls fmt zone calls db disk mem).ids
      = (List.range (runCalls fmt zone calls db disk mem).ids.length).map
          (fun (i : Nat) => wrapInt (db.nextOrderId + (i : Int))) := by
  induction calls generalizing db disk mem with
  | nil => simp [runCalls]
  | cons call rest ih =>
    cases call with
    | getNextOrderId =>
      have hr := wrapInt_range (db.nextOrderId + 1)
      have ih1 := ih { db with nextOrderId := wrapInt (db.nextOrderId + 1) } disk mem hr.1 hr.2
      simp only [runCalls, Database.getNextOrderId, List.length_cons]
      rw [List.range_succ_eq_map, List.map_cons, List.map_map]
      congr 1
      · simp [wrapInt_of_range _ hlo hhi]
      · rw [ih1]
        simp only [List.length_map, List.length_range]
        apply List.map_congr_left
        intro i _
        simp only [Function.comp, wrapInt_add]
        push_cast
        rfl
    | saveOrder order =>
      simp only [runCalls]
      have hn := saveOrder_nextOrderId fmt db disk order
      have ih1 := ih (db.saveOrder fmt disk order).1 (db.saveOrder fmt disk order).2 mem
        (by rw [hn]; exact hlo) (by rw [hn]; exact hhi)
      rw [hn] at ih1
      exact ih1
    | getDailyRevenue now =>
      simp only [runCalls]
      exact ih db disk _ hlo hhi

theorem runCalls_replicate_length (fmt : Format) (zone : Int → Tm) (n : Nat) (db : Database)
    (disk : Disk) (mem : TmMemory) :
    (runCalls fmt zone (List.replicate n StoreCall.getNextOrderId) db disk mem).ids.length = n := by
  induction n generalizing db with
  | zero => simp [runCalls]
  | succ n ih => simp only [List.replicate_succ, runCalls, List.length_cons, ih]

/-- C4, as stated, fails: the counter is a 32-bit `int`. The first call
    returns 1001, call number 2147482647 returns 2147483647 and wraps the
    counter, and the call after it returns -2147483648, smaller than every id
    issued before. -/
theorem getNextOrderId_increasing_counterexample :
    ¬ ∀ (fmt : Format) (zone : Int → Tm) (calls : List StoreCall) (disk : Disk) (mem : TmMemory),
        (runCalls fmt zone calls Database.init disk mem).ids.Pairwise (fun a b => a < b) := by
  intro h
  have hp := h ⟨fun _ => none, fun _ => ""⟩ utcZone
    (List.replicate 2147482648 StoreCall.getNextOrderId) ⟨true, ""⟩ (fun _ => ⟨0, 0, 0⟩)
  rw [runCalls_ids _ _ _ _ _ _ (by decide) (by decide), runCalls_replicate_length] at hp
  rw [List.pairwise_iff_getElem] at hp
  have hlt := hp 2147482646 2147482647
    (by rw [List.length_map, List.length_range]; decide)
    (by rw [List.length_map, List.length_range]; decide) (by decide)
  simp only [List.getElem_map, List.getElem_range, Database.init, wrapInt] at hlt
  norm_num at hlt

/-- C4, amended. From a fresh `Database`, as long as no more than 2147482647
    ids have been issued (the counter has not passed `INT_MAX`), the ids are
    1001, 1002, 1003, ... in the order of the calls, so each is strictly
    larger than every earlier one and none is issued twice; `saveOrder` and
    `getDailyRevenue` calls in between change nothing of this. -/
theorem getNextOrderId_ids (fmt : Format) (zone : Int → Tm) (calls : List StoreCall)
    (disk : Disk) (mem : TmMemory)
    (hbound : (runCalls fmt zone calls Database.init disk mem).ids.length ≤ 2147482647) :
    (runCalls fmt zone calls Database.init disk mem).ids
        = (List.range (runCalls fmt zone calls Database.init disk mem).ids.length).map
            (fun (i : Nat) => (1001 : Int) + (i : Int))
    ∧ (runCalls fmt zone calls Database.init disk mem).ids.head?
        = (if (runCalls fmt zone calls Database.init disk mem).ids = [] then none else some 1001)
    ∧ (runCalls fmt zone calls Database.init disk mem).ids.Pairwise (fun a b => a < b)
    ∧ (runCalls fmt zone calls Database.init disk mem).ids.Nodup := by
  have hids := runCalls_ids fmt zone calls Database.init disk mem (by decide) (by decide)
  have hclosed : (runCalls fmt zone calls Database.init disk mem).ids
        = (List.range (runCalls fmt zone calls Database.init disk mem).ids.length).map
            (fun (i : Nat) => (1001 : Int) + (i : Int)) := by
    conv_lhs => rw [hids]
    apply List.map_congr_left
    intro i hi
    rw [List.mem_range] at hi
    apply wrapInt_of_range
    · simp only [Database.init, INT_MIN]; omega
    · simp only [Database.init, INT_MAX]; omega
  have hpair : (runCalls fmt zone calls Database.init disk mem).ids.Pairwise
      (fun a b => a < b) := by
    rw [hclosed, List.pairwise_map]
    exact (List.pairwise_lt_range _).imp (fun hab => by omega)
  refine ⟨hclosed, ?_, hpair, hpair.imp (fun hab => ne_of_lt hab)⟩
  generalize (runCalls fmt zone calls Database.init disk mem).ids = ids at hclosed
  cases ids with
  | nil => simp
  | cons a rest =>
    rw [List.length_cons, List.range_succ_eq_map, List.map_cons] at hclosed
    simp only [List.cons.injEq] at hclosed
    simp [hclosed.1]

theorem getNextOrderId_ids_witness :
    (runCalls ⟨fun _ => none, fun _ => ""⟩ utcZone
        [StoreCall.getNextOrderId,
          StoreCall.saveOrder ⟨1001, "Ali", 0, [], 0, 0, 0, 0, "Cash", true⟩,
          StoreCall.getDailyRevenue 0, StoreCall.getNextOrderId, StoreCall.getNextOrderId]
        Database.init ⟨false, ""⟩ (fun _ => ⟨0, 0, 0⟩)).ids = [1001, 1002, 1003] := by
  have h := (getNextOrderId_ids ⟨fun _ => none, fun _ => ""⟩ utcZone
        [StoreCall.getNextOrderId,
          StoreCall.saveOrder ⟨1001, "Ali", 0, [], 0, 0, 0, 0, "Cash", true⟩,
          StoreCall.getDailyRevenue 0, StoreCall.getNextOrderId, StoreCall.getNextOrderId]
        ⟨false, ""⟩ (fun _ => ⟨0, 0, 0⟩) (by decide)).1
  rw [h]
  decide

/-! ## The order store: saving and reporting -/

/-- C6, as stated, fails: when `orders.txt` cannot be opened the order is in
    the in-memory collection all the same, and nothing is in the file. -/
theorem saveOrder_atomic_counterexample :
    ¬ ∀ (fmt : Format) (db : Database) (disk : Disk) (order : Order),
        disk.canAppend = false → (db.saveOrder fmt disk order).1.orders = db.orders := by
  intro h
  have h1 := h ⟨fun _ => none, fun _ => ""⟩ Database.init ⟨false, ""⟩
    ⟨1001, "Ali", 0, [], 0, 0, 0, 0, "Cash", true⟩ rfl
  simp [Database.saveOrder, Database.init] at h1

/-- C6, amended. `saveOrder` appends the order to the in-memory collection in
    every case, so the count grows by exactly one whether or not the file
    opens; the record block is appended to `orders.txt` when the file opens,
    and the file is left as it was when it does not. The counter is
    untouched. -/
theorem saveOrder_spec (fmt : Format) (db : Database) (disk : Disk) (order : Order) :
    (db.saveOrder fmt disk order).1.orders = db.orders ++ [order]
    ∧ (db.saveOrder fmt disk order).1.getOrders.length = db.getOrders.length + 1
    ∧ (db.saveOrder fmt disk order).1.nextOrderId = db.nextOrderId
    ∧ (db.saveOrder fmt disk order).2
        = (if disk.canAppend then
            { disk with ordersTxt := disk.ordersTxt ++ orderRecord fmt order }
          else disk) := by
  unfold Database.saveOrder Database.getOrders
  cases hopen : disk.canAppend <;> simp

theorem foldl_revenue (g : TmMemory → Order → TmMemory) (orders : List Order) (acc : ℚ)
    (mem : TmMemory) :
    (orders.foldl (fun (acc : ℚ × TmMemory) order => (acc.1 + order.total, g acc.2 order))
      (acc, mem)).1 = acc + (orders.map (fun order => order.total)).sum := by
  induction orders generalizing acc mem with
  | nil => simp
  | cons o rest ih =>
    simp only [List.foldl_cons, List.map_cons, List.sum_cons]
    rw [ih]
    ring

/-- Every stored order is counted by `getDailyRevenue`, whatever its day: the
    two pointers it compares address the same `struct tm`. -/
theorem getDailyRevenue_all (zone : Int → Tm) (db : Database) (now : Int) (mem : TmMemory) :
    (db.getDailyRevenue zone now mem).1 = (db.orders.map (fun order => order.total)).sum := by
  unfold Database.getDailyRevenue
  simp only [localtime, if_true, and_self]
  have h := foldl_revenue (fun m order => fun p => if p = tmStatic then zone order.orderTime else m p)
    db.orders 0 (fun p => if p = tmStatic then zone now else mem p)
  simp only [zero_add] at h
  exact h

/-- C5 at a failing input. One stored order of total 113 created on
    1970-01-01 (UTC) and a report run on 1970-01-02: the order is of another
    calendar day, the specified revenue is 0, and `getDailyRevenue` returns
    113. -/
theorem getDailyRevenue_other_day :
    utcZone 0 = ⟨70, 0, 1⟩ ∧ utcZone 86400 = ⟨70, 0, 2⟩
    ∧ dailyRevenueSpec utcZone
        [⟨1001, "Ali", 0, [⟨"Ice Cream", "Chocolate Dream", 1, 100, []⟩],
          100, 13, 0, 113, "Cash", true⟩] 86400 = 0
    ∧ ∀ mem : TmMemory,
        (Database.getDailyRevenue utcZone
          ⟨[⟨1001, "Ali", 0, [⟨"Ice Cream", "Chocolate Dream", 1, 100, []⟩],
            100, 13, 0, 113, "Cash", true⟩], 1002⟩ 86400 mem).1 = 113 := by
  refine ⟨by decide, by decide, ?_, ?_⟩
  · have h0 : utcZone 0 = ⟨70, 0, 1⟩ := by decide
    have h1 : utcZone 86400 = ⟨70, 0, 2⟩ := by decide
    simp [dailyRevenueSpec, h0, h1]
  · intro mem
    rw [getDailyRevenue_all]
    simp

/-! ## Reading integers: range, progress, fuel -/

theorem extractInt_some (s : Cin) (x : Int) (rest : Cin) (h : extractInt s = (some x, rest)) :
    (INT_MIN ≤ x ∧ x ≤ INT_MAX) ∧ rest.length < s.length := by
  unfold extractInt at h
  simp only at h
  by_cases hempty : ((takeSign (s.dropWhile isspace)).2.takeWhile isdigit).isEmpty = true
  · rw [if_pos hempty] at h
    simp at h
  · rw [if_neg hempty] at h
    generalize (if (takeSign (s.dropWhile isspace)).1 = true then
        -(digitsValue ((takeSign (s.dropWhile isspace)).2.takeWhile isdigit) : Int)
      else (digitsValue ((takeSign (s.dropWhile isspace)).2.takeWhile isdigit) : Int)) = v at h
    by_cases hrange : INT_MIN ≤ v ∧ v ≤ INT_MAX
    · rw [if_pos hrange] at h
      obtain ⟨hx, hrest⟩ := Prod.mk.inj h
      simp only [Option.some.injEq] at hx
      subst hx
      refine ⟨hrange, ?_⟩
      rw [← hrest]
      have happ := congrArg List.length
        (List.takeWhile_append_dropWhile isdigit (takeSign (s.dropWhile isspace)).2)
      rw [List.length_append] at happ
      have hpos : 0 < ((takeSign (s.dropWhile isspace)).2.takeWhile isdigit).length := by
        cases htw : (takeSign (s.dropWhile isspace)).2.takeWhile isdigit with
        | nil => rw [htw] at hempty; simp at hempty
        | cons _ _ => simp
      have hsign : (takeSign (s.dropWhile isspace)).2.length ≤ (s.dropWhile isspace).length := by
        cases hdw : s.dropWhile isspace with
        | nil => simp [takeSign]
        | cons c rest =>
          simp only [takeSign]
          split
          · simp
          · split <;> simp
      have hws := (List.dropWhile_sublist (l := s) isspace).length_le
      omega
    · rw [if_neg hrange] at h
      simp at h

theorem extractInt_rest_length (s : Cin) : (extractInt s).2.length ≤ s.length := by
  have hsign : (takeSign (s.dropWhile isspace)).2.length ≤ (s.dropWhile isspace).length := by
    cases hdw : s.dropWhile isspace with
    | nil => simp [takeSign]
    | cons c rest =>
      simp only [takeSign]
      split
      · simp
      · split <;> simp
  have h1 : ((takeSign (s.dropWhile isspace)).2.dropWhile isdigit).length ≤ s.length :=
    le_trans (List.dropWhile_sublist isdigit).length_le
      (le_trans hsign (List.dropWhile_sublist isspace).length_le)
  unfold extractInt
  simp only
  split
  · exact h1
  · split <;> (split <;> exact h1)

theorem ignoreLine_length (s : Cin) (hs : s.isEmpty = false) : (ignoreLine s).length < s.length := by
  unfold ignoreLine
  have hdw := (List.dropWhile_sublist (l := s) (fun c => decide (c.toNat ≠ 10))).length_le
  have hpos : 0 < s.length := by
    cases s with
    | nil => simp at hs
    | cons _ _ => simp
  rw [List.length_drop]
  omega

theorem getValidIntAux_some (fuel : Nat) (s : Cin) (x : Int) (rest : Cin)
    (h : getValidIntAux fuel s = some (x, rest)) :
    (INT_MIN ≤ x ∧ x ≤ INT_MAX) ∧ rest.length < s.length := by
  induction fuel generalizing s with
  | zero => simp [getValidIntAux] at h
  | succ fuel ih =>
    unfold getValidIntAux at h
    cases hext : extractInt s with
    | mk r rest1 =>
      rw [hext] at h
      cases r with
      | some y =>
        simp only [Option.some.injEq, Prod.mk.injEq] at h
        obtain ⟨hy, hr⟩ := h
        subst hy; subst hr
        exact extractInt_some s y rest1 hext
      | none =>
        simp only at h
        cases hemp : rest1.isEmpty with
        | true => rw [hemp] at h; simp at h
        | false =>
          rw [hemp] at h
          simp only [Bool.false_eq_true, if_false] at h
          have hrec := ih (ignoreLine rest1) h
          have h1 := ignoreLine_length rest1 hemp
          have h2 := extractInt_rest_length s
          rw [hext] at h2
          simp only at h2
          exact ⟨hrec.1, by omega⟩

theorem extractChar_some (s : Cin) (c : Char) (rest : Cin)
    (h : extractChar s = some (c, rest)) : rest.length < s.length := by
  unfold extractChar at h
  have hws := (List.dropWhile_sublist (l := s) isspace).length_le
  cases hdw : s.dropWhile isspace with
  | nil => rw [hdw] at h; simp at h
  | cons c0 rest0 =>
    rw [hdw] at h hws
    simp only [Option.some.injEq, Prod.mk.injEq] at h
    rw [← h.2]
    simp only [List.length_cons] at hws
    omega

/-- What `getValidInt` returns is an `int`, and the input has advanced. -/
theorem getValidInt_some (s : Cin) (x : Int) (rest : Cin) (h : getValidInt s = some (x, rest)) :
    (INT_MIN ≤ x ∧ x ≤ INT_MAX) ∧ rest.length < s.length :=
  getValidIntAux_some _ s x rest h

theorem getValidIntAux_fuel_eq (fuel1 fuel2 : Nat) (s : Cin) (h1 : s.length < fuel1)
    (h2 : s.length < fuel2) : getValidIntAux fuel1 s = getValidIntAux fuel2 s := by
  induction fuel1 generalizing fuel2 s with
  | zero => omega
  | succ fuel1 ih =>
    cases fuel2 with
    | zero => omega
    | succ fuel2 =>
      unfold getValidIntAux
      cases hext : extractInt s with
      | mk r rest1 =>
        cases r with
        | some y => rfl
        | none =>
          simp only
          cases hemp : rest1.isEmpty with
          | true => simp
          | false =>
            simp only [Bool.false_eq_true, if_false]
            have hlt := ignoreLine_length rest1 hemp
            have hle := extractInt_rest_length s
            rw [hext] at hle
            simp only at hle
            exact ih fuel2 (ignoreLine rest1) (by omega) (by omega)

/-- The attempts that `getValidInt` allows are enough: more fuel gives the same
    answer, so `none` always means that a numeric answer never arrives. -/
theorem getValidIntAux_fuel (fuel : Nat) (s : Cin) (hfuel : s.length < fuel) :
    getValidIntAux fuel s = getValidInt s :=
  getValidIntAux_fuel_eq fuel (s.length + 1) s hfuel (Nat.lt_succ_self _)

/-! ## The add-item step -/

theorem menu_length : menu.length = 9 := rfl

theorem menu_mem_of_getElem? (i : Nat) (m : MenuItem) (h : menu[i]? = some m) : m ∈ menu :=
  List.getElem?_mem h

theorem menu_options_ne_nil (m : MenuItem) (h : m ∈ menu) : m.options ≠ [] := by
  simp only [menu, List.mem_cons, List.mem_singleton, List.not_mem_nil, or_false] at h
  rcases h with h | h | h | h | h | h | h | h | h <;> subst h <;> simp [scoops, sizes]

theorem menu_iceCream_options (m : MenuItem) (h : m ∈ menu) (hcat : m.category = "Ice Cream") :
    m.options = scoops := by
  simp only [menu, List.mem_cons, List.mem_singleton, List.not_mem_nil, or_false] at h
  rcases h with h | h | h | h | h | h | h | h | h <;> subst h <;> simp at hcat ⊢

theorem takeOrderStep_invalid (order : Order) (addMore : Option Char) (s : Cin) (choice : Int)
    (s1 : Cin) (hchoice : getValidInt s = some (choice, s1)) (hbad : choice < 1 ∨ 9 < choice) :
    takeOrderStep order addMore s = some (order, addMore, s1) := by
  unfold takeOrderStep
  simp only [hchoice, Option.bind_eq_bind, Option.some_bind, menu_length]
  rw [if_pos (by simpa using hbad)]
  rfl

theorem takeOrderStep_other (order : Order) (addMore : Option Char) (s : Cin) (choice : Int)
    (s1 : Cin) (m : MenuItem) (q : Int) (s2 : Cin) (c : Char) (s3 : Cin)
    (hchoice : getValidInt s = some (choice, s1)) (hlo : 1 ≤ choice) (hhi : choice ≤ 9)
    (hm : menu[(choice - 1).toNat]? = some m) (hcat : m.category ≠ "Ice Cream")
    (hq : getValidInt s1 = some (q, s2)) (hc : extractChar s2 = some (c, s3)) :
    takeOrderStep order addMore s
      = some ({ order with items := order.items ++ [⟨m.category, m.name, q, m.price, []⟩] },
              some c, s3) := by
  unfold takeOrderStep
  simp only [hchoice, Option.bind_eq_bind, Option.some_bind, menu_length]
  rw [if_neg (by push_cast; omega)]
  simp only [hm, Option.some_bind, hq]
  rw [if_neg (by simp [hcat])]
  simp [hc]

theorem takeOrderStep_iceCream (order : Order) (addMore : Option Char) (s : Cin) (choice : Int)
    (s1 : Cin) (m : MenuItem) (q : Int) (s2 : Cin) (a : Int) (s3 : Cin) (b : Int) (s4 : Cin)
    (c : Char) (s5 : Cin)
    (hchoice : getValidInt s = some (choice, s1)) (hlo : 1 ≤ choice) (hhi : choice ≤ 9)
    (hm : menu[(choice - 1).toNat]? = some m) (hcat : m.category = "Ice Cream")
    (hq : getValidInt s1 = some (q, s2)) (ha : getValidInt s2 = some (a, s3))
    (hb : getValidInt s3 = some (b, s4)) (hc : extractChar s4 = some (c, s5)) :
    takeOrderStep order addMore s
      = some ({ order with items := order.items ++
                [⟨m.category, m.name, q, m.price,
                  (if 0 < a ∧ a ≤ (m.options.length : Int) then
                    [m.options.getD (a - 1).toNat ""] else [])
                  ++ (if 0 < b ∧ b ≤ 7 then [toppings.getD (b - 1).toNat ""] else [])⟩] },
              some c, s5) := by
  have hopt : m.options ≠ [] := menu_options_ne_nil m (menu_mem_of_getElem? _ m hm)
  unfold takeOrderStep
  simp only [hchoice, Option.bind_eq_bind, Option.some_bind, menu_length]
  rw [if_neg (by push_cast; omega)]
  simp only [hm, Option.some_bind, hq]
  rw [if_pos (by simp [hcat, hopt])]
  simp only [Option.bind_eq_bind, Option.some_bind, ha, hb, hc]
  have htop : (toppings.length : Int) = 7 := rfl
  rw [htop]
  by_cases h1 : 0 < a ∧ a ≤ (m.options.length : Int) <;>
    by_cases h2 : 0 < b ∧ b ≤ 7 <;> simp [h1, h2, hc]

theorem menu_getElem?_valid (choice : Int) (hlo : 1 ≤ choice) (hhi : choice ≤ 9) :
    ∃ m, menu[(choice - 1).toNat]? = some m := by
  have hlt : (choice - 1).toNat < menu.length := by
    rw [menu_length]; omega
  exact ⟨menu[(choice - 1).toNat], List.getElem?_eq_getElem hlt⟩

theorem takeOrderStep_none_quantity (order : Order) (addMore : Option Char) (s : Cin)
    (choice : Int) (s1 : Cin) (m : MenuItem)
    (hchoice : getValidInt s = some (choice, s1)) (hlo : 1 ≤ choice) (hhi : choice ≤ 9)
    (hm : menu[(choice - 1).toNat]? = some m) (hq : getValidInt s1 = none) :
    takeOrderStep order addMore s = none := by
  unfold takeOrderStep
  simp only [hchoice, Option.bind_eq_bind, Option.some_bind, menu_length]
  rw [if_neg (by push_cast; omega)]
  simp only [hm, Option.some_bind, hq, Option.none_bind]

/-- What the add-item step returns for a valid selection, when it returns. -/
theorem takeOrderStep_valid_some (order : Order) (addMore : Option Char) (s : Cin)
    (choice : Int) (s1 : Cin) (m : MenuItem)
    (hchoice : getValidInt s = some (choice, s1)) (hlo : 1 ≤ choice) (hhi : choice ≤ 9)
    (hm : menu[(choice - 1).toNat]? = some m)
    (r : Order × Option Char × Cin) (hr : takeOrderStep order addMore s = some r) :
    ∃ q s2 details c, getValidInt s1 = some (q, s2)
      ∧ r.1 = { order with items := order.items ++ [⟨m.category, m.name, q, m.price, details⟩] }
      ∧ r.2.1 = some c
      ∧ (m.category ≠ "Ice Cream" → details = [])
      ∧ r.2.2.length < s2.length := by
  cases hq : getValidInt s1 with
  | none =>
    rw [takeOrderStep_none_quantity order addMore s choice s1 m hchoice hlo hhi hm hq] at hr
    exact absurd hr (by simp)
  | some qs =>
    obtain ⟨q, s2⟩ := qs
    by_cases hcat : m.category = "Ice Cream"
    · cases ha : getValidInt s2 with
      | none =>
        exfalso
        have hopt : m.options ≠ [] := menu_options_ne_nil m (menu_mem_of_getElem? _ m hm)
        unfold takeOrderStep at hr
        simp only [hchoice, Option.bind_eq_bind, Option.some_bind, menu_length] at hr
        rw [if_neg (by push_cast; omega)] at hr
        simp only [hm, Option.some_bind, hq] at hr
        rw [if_pos (by simp [hcat, hopt])] at hr
        simp [ha] at hr
      | some as =>
        obtain ⟨a, s3⟩ := as
        cases hb : getValidInt s3 with
        | none =>
          exfalso
          have hopt : m.options ≠ [] := menu_options_ne_nil m (menu_mem_of_getElem? _ m hm)
          unfold takeOrderStep at hr
          simp only [hchoice, Option.bind_eq_bind, Option.some_bind, menu_length] at hr
          rw [if_neg (by push_cast; omega)] at hr
          simp only [hm, Option.some_bind, hq] at hr
          rw [if_pos (by simp [hcat, hopt])] at hr
          simp [ha, hb] at hr
        | some bs =>
          obtain ⟨b, s4⟩ := bs
          cases hc : extractChar s4 with
          | none =>
            exfalso
            have hopt : m.options ≠ [] := menu_options_ne_nil m (menu_mem_of_getElem? _ m hm)
            unfold takeOrderStep at hr
            simp only [hchoice, Option.bind_eq_bind, Option.some_bind, menu_length] at hr
            rw [if_neg (by push_cast; omega)] at hr
            simp only [hm, Option.some_bind, hq] at hr
            rw [if_pos (by simp [hcat, hopt])] at hr
            simp [ha, hb, hc] at hr
          | some cs =>
            obtain ⟨c, s5⟩ := cs
            rw [takeOrderStep_iceCream order addMore s choice s1 m q s2 a s3 b s4 c s5
              hchoice hlo hhi hm hcat hq ha hb hc] at hr
            have hr1 := (Option.some.inj hr).symm
            have l1 := (getValidInt_some s2 a s3 ha).2
            have l2 := (getValidInt_some s3 b s4 hb).2
            have l3 := extractChar_some s4 c s5 hc
            exact ⟨q, s2, _, c, rfl, by rw [hr1], by rw [hr1], fun hne => absurd hcat hne,
              by rw [hr1]; simp only; omega⟩
    · cases hc : extractChar s2 with
      | none =>
        exfalso
        unfold takeOrderStep at hr
        simp only [hchoice, Option.bind_eq_bind, Option.some_bind, menu_length] at hr
        rw [if_neg (by push_cast; omega)] at hr
        simp only [hm, Option.some_bind, hq] at hr
        rw [if_neg (by simp [hcat])] at hr
        simp [hc] at hr
      | some cs =>
        obtain ⟨c, s3⟩ := cs
        rw [takeOrderStep_other order addMore s choice s1 m q s2 c s3
          hchoice hlo hhi hm hcat hq hc] at hr
        have hr1 := (Option.some.inj hr).symm
        have l3 := extractChar_some s2 c s3 hc
        exact ⟨q, s2, [], c, rfl, by rw [hr1], by rw [hr1], fun _ => rfl,
          by rw [hr1]; exact l3⟩

/-- The add-item step returns for a valid selection as soon as the input
    holds the answers it may ask for: the quantity, then either the add-more
    answer or the two customisation choices and the add-more answer. -/
theorem takeOrderStep_returns (order : Order) (addMore : Option Char) (s : Cin)
    (choice : Int) (s1 : Cin) (q : Int) (s2 : Cin) (a : Int) (s3 : Cin) (b : Int) (s4 : Cin)
    (c : Char) (s5 : Cin) (c' : Char) (s3' : Cin)
    (hchoice : getValidInt s = some (choice, s1)) (hlo : 1 ≤ choice) (hhi : choice ≤ 9)
    (hq : getValidInt s1 = some (q, s2)) (ha : getValidInt s2 = some (a, s3))
    (hb : getValidInt s3 = some (b, s4)) (hc : extractChar s4 = some (c, s5))
    (hc' : extractChar s2 = some (c', s3')) :
    (takeOrderStep order addMore s).isSome = true := by
  obtain ⟨m, hm⟩ := menu_getElem?_valid choice hlo hhi
  by_cases hcat : m.category = "Ice Cream"
  · rw [takeOrderStep_iceCream order addMore s choice s1 m q s2 a s3 b s4 c s5
      hchoice hlo hhi hm hcat hq ha hb hc]
    rfl
  · rw [takeOrderStep_other order addMore s choice s1 m q s2 c' s3'
      hchoice hlo hhi hm hcat hq hc']
    rfl

theorem finishOrder_items (order : Order) (s : Cin) (o : Order) (s2 : Cin)
    (h : finishOrder order s = some (o, s2)) : o.items = order.items := by
  unfold finishOrder at h
  cases hd : extractChar s with
  | none => simp [askDonation, hd] at h
  | some ds =>
    obtain ⟨d, s1⟩ := ds
    rw [askDonation_eq _ s d s1 hd] at h
    simp only at h
    cases hc : getValidInt s1 with
    | none => simp [selectPaymentMethod, hc] at h
    | some cs =>
      obtain ⟨c, s3⟩ := cs
      rw [selectPaymentMethod_eq _ s1 c s3 hc] at h
      have h1 := (Prod.mk.inj (Option.some.inj h)).1
      rw [← h1]
      by_cases hy : d = 'y' ∨ d = 'Y' <;> simp [hy, calculateOrderTotal]

/-- C7, as stated, fails: the operator answers the main menu, gives the name
    "Ali", selects item 5, enters quantity 0, declines another item and the
    donation and pays cash; `takeOrder` returns an order whose only line has
    quantity 0. -/
theorem takeOrder_quantity_counterexample :
    ¬ ∀ (db : Database) (now : Int) (s : Cin) (o : Order) (db1 : Database) (s1 : Cin),
        takeOrder db now s = some (o, db1, s1) → ∀ item ∈ o.items, 1 ≤ item.quantity := by
  intro h
  have htake : takeOrder Database.init 0
      ['\n', 'A', 'l', 'i', '\n', '5', '\n', '0', '\n', 'n', '\n', 'n', '\n', '1', '\n']
      = (match finishOrder
            ⟨1001, "Ali", 0, [⟨"Shakes", "Chocolate Shake", 0, 250, []⟩], 0, 0, 0, 0, "", false⟩
            ['\n', 'n', '\n', '1', '\n'] with
          | none => none
          | some (order, s) => some (order, ⟨[], 1002⟩, s)) := by
    rfl
  cases hfin : finishOrder
      ⟨1001, "Ali", 0, [⟨"Shakes", "Chocolate Shake", 0, 250, []⟩], 0, 0, 0, 0, "", false⟩
      ['\n', 'n', '\n', '1', '\n'] with
  | none =>
    have hd : extractChar ['\n', 'n', '\n', '1', '\n'] = some ('n', ['\n', '1', '\n']) := by rfl
    have hc : getValidInt ['\n', '1', '\n'] = some (1, ['\n']) := by rfl
    unfold finishOrder at hfin
    rw [askDonation_eq _ _ _ _ hd] at hfin
    simp only [selectPaymentMethod_eq _ _ _ _ hc] at hfin
    exact absurd hfin (by simp)
  | some os =>
    obtain ⟨o, s1⟩ := os
    rw [hfin] at htake
    have hitems := finishOrder_items _ _ _ _ hfin
    have hq := h _ _ _ _ _ _ htake ⟨"Shakes", "Chocolate Shake", 0, 250, []⟩
      (by rw [hitems]; exact List.mem_singleton.2 rfl)
    exact absurd hq (by decide)

/-! ## The add-item step: selection, quantity, customisation -/

theorem menu_iceCream_iff (choice : Int) (m : MenuItem) (hlo : 1 ≤ choice) (hhi : choice ≤ 9)
    (hm : menu[(choice - 1).toNat]? = some m) : m.category = "Ice Cream" ↔ choice ≤ 4 := by
  interval_cases choice <;> simp [menu] at hm <;> subst hm <;> simp

/-- C8. With `choice` the selection that `getValidInt` returns: a selection
    below 1 or above 9 (the catalogue has 9 entries) ends the step with the
    draft order exactly as it was. A selection from 1 to 9 appends exactly
    one line item whose category, name and unit price are those of catalogue
    entry `choice`, all else in the order unchanged: the step returns that as
    soon as the input holds the answers this entry is asked for (the
    quantity and the add-more answer for entries 5 to 9; the quantity, the
    size choice, the topping choice and the add-more answer for entries 1 to
    4), and it returns nothing else. -/
theorem takeOrderStep_selection (order : Order) (addMore : Option Char) (s : Cin) (choice : Int)
    (s1 : Cin) (hchoice : getValidInt s = some (choice, s1)) :
    menu.length = 9
    ∧ ((choice < 1 ∨ 9 < choice) → takeOrderStep order addMore s = some (order, addMore, s1))
    ∧ (1 ≤ choice → choice ≤ 9 →
        ∃ m, menu[(choice - 1).toNat]? = some m
          ∧ (m.category = "Ice Cream" ↔ choice ≤ 4)
          ∧ (m.category ≠ "Ice Cream" → ∀ q s2 c s3,
              getValidInt s1 = some (q, s2) → extractChar s2 = some (c, s3) →
              ∃ item, takeOrderStep order addMore s
                    = some ({ order with items := order.items ++ [item] }, some c, s3)
                ∧ item.type = m.category ∧ item.name = m.name ∧ item.price = m.price
                ∧ item.quantity = q)
          ∧ (m.category = "Ice Cream" → ∀ q s2 a s3 b s4 c s5,
              getValidInt s1 = some (q, s2) → getValidInt s2 = some (a, s3) →
              getValidInt s3 = some (b, s4) → extractChar s4 = some (c, s5) →
              ∃ item, takeOrderStep order addMore s
                    = some ({ order with items := order.items ++ [item] }, some c, s5)
                ∧ item.type = m.category ∧ item.name = m.name ∧ item.price = m.price
                ∧ item.quantity = q)
          ∧ (∀ r, takeOrderStep order addMore s = some r →
              ∃ item, r.1 = { order with items := order.items ++ [item] }
                ∧ item.type = m.category ∧ item.name = m.name ∧ item.price = m.price)) := by
  refine ⟨rfl, takeOrderStep_invalid order addMore s choice s1 hchoice, ?_⟩
  intro hlo hhi
  obtain ⟨m, hm⟩ := menu_getElem?_valid choice hlo hhi
  refine ⟨m, hm, menu_iceCream_iff choice m hlo hhi hm, ?_, ?_, ?_⟩
  · intro hcat q s2 c s3 hq hc
    exact ⟨_, takeOrderStep_other order addMore s choice s1 m q s2 c s3
      hchoice hlo hhi hm hcat hq hc, rfl, rfl, rfl, rfl⟩
  · intro hcat q s2 a s3 b s4 c s5 hq ha hb hc
    exact ⟨_, takeOrderStep_iceCream order addMore s choice s1 m q s2 a s3 b s4 c s5
      hchoice hlo hhi hm hcat hq ha hb hc, rfl, rfl, rfl, rfl⟩
  · intro r hr
    obtain ⟨q, s2, details, c, _, hr1, _, _⟩ :=
      takeOrderStep_valid_some order addMore s choice s1 m hchoice hlo hhi hm r hr
    exact ⟨⟨m.category, m.name, q, m.price, details⟩, hr1, rfl, rfl, rfl⟩

theorem takeOrderStep_selection_witness :
    takeOrderStep ⟨1001, "Ali", 0, [⟨"Shakes", "Chocolate Shake", 1, 250, []⟩],
        0, 0, 0, 0, "", false⟩ (some 'y') ['1', '0', '\n']
      = some (⟨1001, "Ali", 0, [⟨"Shakes", "Chocolate Shake", 1, 250, []⟩],
          0, 0, 0, 0, "", false⟩, some 'y', ['\n'])
    ∧ (∃ item, takeOrderStep ⟨1001, "Ali", 0, [], 0, 0, 0, 0, "", false⟩ none
          ['5', '\n', '1', '\n', 'n', '\n', 'n', '\n', '1', '\n']
        = some ({ (⟨1001, "Ali", 0, [], 0, 0, 0, 0, "", false⟩ : Order) with
                  items := [] ++ [item] }, some 'n', ['\n', 'n', '\n', '1', '\n'])
      ∧ item.type = "Shakes" ∧ item.name = "Chocolate Shake" ∧ item.price = 250
      ∧ item.quantity = 1)
    ∧ (∃ item, takeOrderStep ⟨1001, "Ali", 0, [], 0, 0, 0, 0, "", false⟩ none
          ['2', '\n', '3', '\n', '1', '\n', '7', '\n', 'n', '\n']
        = some ({ (⟨1001, "Ali", 0, [], 0, 0, 0, 0, "", false⟩ : Order) with
                  items := [] ++ [item] }, some 'n', ['\n'])
      ∧ item.type = "Ice Cream" ∧ item.name = "Vanilla Bliss" ∧ item.price = 100
      ∧ item.quantity = 3) := by
  refine ⟨(takeOrderStep_selection _ (some 'y') ['1', '0', '\n'] 10 ['\n'] (by rfl)).2.1
      (Or.inr (by decide)), ?_, ?_⟩
  · obtain ⟨m, hm, hiff, hother, _, _⟩ :=
      (takeOrderStep_selection ⟨1001, "Ali", 0, [], 0, 0, 0, 0, "", false⟩ none
        ['5', '\n', '1', '\n', 'n', '\n', 'n', '\n', '1', '\n'] 5
        ['\n', '1', '\n', 'n', '\n', 'n', '\n', '1', '\n'] (by rfl)).2.2 (by decide) (by decide)
    have hm5 : menu[((5 : Int) - 1).toNat]?
        = some ⟨"Shakes", "Chocolate Shake", "Rich chocolate milkshake", 250, sizes⟩ := by rfl
    have hmeq := Option.some.inj (hm.symm.trans hm5)
    subst hmeq
    exact hother (by decide) 1 ['\n', 'n', '\n', 'n', '\n', '1', '\n'] 'n'
      ['\n', 'n', '\n', '1', '\n'] (by rfl) (by rfl)
  · obtain ⟨m, hm, hiff, _, hice, _⟩ :=
      (takeOrderStep_selection ⟨1001, "Ali", 0, [], 0, 0, 0, 0, "", false⟩ none
        ['2', '\n', '3', '\n', '1', '\n', '7', '\n', 'n', '\n'] 2
        ['\n', '3', '\n', '1', '\n', '7', '\n', 'n', '\n'] (by rfl)).2.2 (by decide) (by decide)
    have hm2 : menu[((2 : Int) - 1).toNat]?
        = some ⟨"Ice Cream", "Vanilla Bliss", "Classic vanilla ice cream", 100, scoops⟩ := by rfl
    have hmeq := Option.some.inj (hm.symm.trans hm2)
    subst hmeq
    exact hice rfl 3 ['\n', '1', '\n', '7', '\n', 'n', '\n'] 1 ['\n', '7', '\n', 'n', '\n']
      7 ['\n', 'n', '\n'] 'n' ['\n'] (by rfl) (by rfl) (by rfl) (by rfl)

theorem takeOrderStep_reads (order : Order) (addMore : Option Char) (s : Cin)
    (r : Order × Option Char × Cin) (hr : takeOrderStep order addMore s = some r) :
    ∃ choice s1, getValidInt s = some (choice, s1) := by
  cases hchoice : getValidInt s with
  | none =>
    unfold takeOrderStep at hr
    simp [hchoice] at hr
  | some cs => exact ⟨cs.1, cs.2, rfl⟩

theorem takeOrderStep_quantity_range (order : Order) (addMore : Option Char) (s : Cin)
    (r : Order × Option Char × Cin) (hr : takeOrderStep order addMore s = some r)
    (hinv : ∀ item ∈ order.items, INT_MIN ≤ item.quantity ∧ item.quantity ≤ INT_MAX) :
    ∀ item ∈ r.1.items, INT_MIN ≤ item.quantity ∧ item.quantity ≤ INT_MAX := by
  obtain ⟨choice, s1, hchoice⟩ := takeOrderStep_reads order addMore s r hr
  by_cases hbad : choice < 1 ∨ 9 < choice
  · rw [takeOrderStep_invalid order addMore s choice s1 hchoice hbad] at hr
    rw [← Option.some.inj hr]
    exact hinv
  · have hlo : 1 ≤ choice := by omega
    have hhi : choice ≤ 9 := by omega
    obtain ⟨m, hm⟩ := menu_getElem?_valid choice hlo hhi
    obtain ⟨q, s2, details, c, hq, hr1, _, _⟩ :=
      takeOrderStep_valid_some order addMore s choice s1 m hchoice hlo hhi hm r hr
    intro item hmem
    rw [hr1] at hmem
    simp only [List.mem_append, List.mem_singleton] at hmem
    rcases hmem with hold | hnew
    · exact hinv item hold
    · rw [hnew]
      exact (getValidInt_some s1 q s2 hq).1

theorem takeOrderLoop_quantity_range (fuel : Nat) (order : Order) (addMore : Option Char)
    (s : Cin) (o : Order) (s1 : Cin) (h : takeOrderLoop fuel order addMore s = some (o, s1))
    (hinv : ∀ item ∈ order.items, INT_MIN ≤ item.quantity ∧ item.quantity ≤ INT_MAX) :
    ∀ item ∈ o.items, INT_MIN ≤ item.quantity ∧ item.quantity ≤ INT_MAX := by
  induction fuel generalizing order addMore s with
  | zero => simp [takeOrderLoop] at h
  | succ fuel ih =>
    unfold takeOrderLoop at h
    cases hstep : takeOrderStep order addMore s with
    | none => rw [hstep] at h; simp at h
    | some r =>
      obtain ⟨order1, am1, s2⟩ := r
      have hinv1 := takeOrderStep_quantity_range order addMore s _ hstep hinv
      rw [hstep] at h
      cases am1 with
      | none => simp at h
      | some c =>
        simp only at h
        by_cases hy : c = 'y' ∨ c = 'Y'
        · rw [if_pos hy] at h
          exact ih order1 (some c) s2 h hinv1
        · rw [if_neg hy] at h
          simp only [Option.some.injEq, Prod.mk.injEq] at h
          rw [← h.1]
          exact hinv1

theorem takeOrderStep_quantities (order : Order) (addMore : Option Char) (s : Cin)
    (r : Order × Option Char × Cin) (hr : takeOrderStep order addMore s = some r) :
    r.1.items.map (fun item => item.quantity)
      = order.items.map (fun item => item.quantity) ++ (quantityAnswer s).toList := by
  obtain ⟨choice, s1, hchoice⟩ := takeOrderStep_reads order addMore s r hr
  by_cases hbad : choice < 1 ∨ 9 < choice
  · rw [takeOrderStep_invalid order addMore s choice s1 hchoice hbad] at hr
    rw [← Option.some.inj hr]
    unfold quantityAnswer
    rw [hchoice]
    simp only [menu_length]
    rw [if_pos (by simpa using hbad)]
    simp
  · have hlo : 1 ≤ choice := by omega
    have hhi : choice ≤ 9 := by omega
    obtain ⟨m, hm⟩ := menu_getElem?_valid choice hlo hhi
    obtain ⟨q, s2, details, c, hq, hr1, _, _⟩ :=
      takeOrderStep_valid_some order addMore s choice s1 m hchoice hlo hhi hm r hr
    unfold quantityAnswer
    rw [hchoice]
    simp only [menu_length]
    rw [if_neg (by push_cast; omega)]
    simp only [hq, hr1, List.map_append, List.map_cons, List.map_nil, Option.toList]

theorem takeOrderLoop_quantities (fuel : Nat) (order : Order) (addMore : Option Char)
    (s : Cin) (o : Order) (s1 : Cin) (h : takeOrderLoop fuel order addMore s = some (o, s1)) :
    o.items.map (fun item => item.quantity)
      = order.items.map (fun item => item.quantity) ++ quantityAnswers fuel order addMore s := by
  induction fuel generalizing order addMore s with
  | zero => simp [takeOrderLoop] at h
  | succ fuel ih =>
    unfold takeOrderLoop at h
    unfold quantityAnswers
    cases hstep : takeOrderStep order addMore s with
    | none => rw [hstep] at h; simp at h
    | some r =>
      obtain ⟨order1, am1, s2⟩ := r
      have hq := takeOrderStep_quantities order addMore s _ hstep
      simp only at hq
      rw [hstep] at h
      cases am1 with
      | none => simp at h
      | some c =>
        simp only at h ⊢
        by_cases hy : c = 'y' ∨ c = 'Y'
        · rw [if_pos hy] at h
          rw [if_pos hy, ih order1 (some c) s2 h, hq, List.append_assoc]
        · rw [if_neg hy] at h
          simp only [Option.some.injEq, Prod.mk.injEq] at h
          rw [if_neg hy, ← h.1, hq, List.append_nil]

theorem getValidInt_accept (s : Cin) (x : Int) (rest : Cin)
    (h : extractInt s = (some x, rest)) : getValidInt s = some (x, rest) := by
  unfold getValidInt getValidIntAux
  rw [h]

theorem getValidInt_again (s : Cin) (rest : Cin) (h : extractInt s = (none, rest)) :
    getValidInt s = if rest.isEmpty then none else getValidInt (ignoreLine rest) := by
  have hle := extractInt_rest_length s
  rw [h] at hle
  simp only at hle
  conv_lhs => unfold getValidInt getValidIntAux
  rw [h]
  simp only
  cases hemp : rest.isEmpty with
  | true => simp
  | false =>
    simp only [Bool.false_eq_true, if_false]
    have hlt := ignoreLine_length rest hemp
    exact getValidIntAux_fuel _ _ (by omega)

/-- C7, amended. A quantity is stored as entered, whatever its sign.
    `getValidInt` returns at once whatever `int` the extraction yields, zero
    and negative values included, and asks again exactly when the extraction
    fails, which is when the input holds no digit there or the number is
    outside the `int` range. The add-item step appends a line whose quantity
    is the value `getValidInt` returned at the quantity prompt. So in the
    order that `takeOrder` returns, the quantities of the lines are, in
    order, exactly the quantity answers of the run: all between `INT_MIN`
    and `INT_MAX`, with no lower bound of 1. -/
theorem takeOrder_quantity :
    (∀ (s : Cin) (x : Int) (rest : Cin), extractInt s = (some x, rest) →
        getValidInt s = some (x, rest))
    ∧ (∀ (s : Cin) (rest : Cin), extractInt s = (none, rest) →
        getValidInt s = if rest.isEmpty then none else getValidInt (ignoreLine rest))
    ∧ (∀ (s : Cin), (extractInt s).1 = none ↔
        ((takeSign (s.dropWhile isspace)).2.takeWhile isdigit = []
          ∨ ¬ (INT_MIN
                ≤ (if (takeSign (s.dropWhile isspace)).1 = true then
                    -(digitsValue ((takeSign (s.dropWhile isspace)).2.takeWhile isdigit) : Int)
                  else (digitsValue ((takeSign (s.dropWhile isspace)).2.takeWhile isdigit) : Int))
              ∧ (if (takeSign (s.dropWhile isspace)).1 = true then
                    -(digitsValue ((takeSign (s.dropWhile isspace)).2.takeWhile isdigit) : Int)
                  else (digitsValue ((takeSign (s.dropWhile isspace)).2.takeWhile isdigit) : Int))
                ≤ INT_MAX)))
    ∧ (∀ (order : Order) (addMore : Option Char) (s : Cin) (choice : Int) (s1 : Cin) (q : Int)
        (s2 : Cin), getValidInt s = some (choice, s1) → 1 ≤ choice → choice ≤ 9 →
        getValidInt s1 = some (q, s2) →
        (INT_MIN ≤ q ∧ q ≤ INT_MAX)
        ∧ (choice ≥ 5 → ∀ c s3, extractChar s2 = some (c, s3) →
            ∃ item, takeOrderStep order addMore s
                  = some ({ order with items := order.items ++ [item] }, some c, s3)
              ∧ item.quantity = q)
        ∧ (choice ≤ 4 → ∀ a s3 b s4 c s5, getValidInt s2 = some (a, s3) →
            getValidInt s3 = some (b, s4) → extractChar s4 = some (c, s5) →
            ∃ item, takeOrderStep order addMore s
                  = some ({ order with items := order.items ++ [item] }, some c, s5)
              ∧ item.quantity = q)
        ∧ (∀ r, takeOrderStep order addMore s = some r →
            ∃ item, r.1.items = order.items ++ [item] ∧ item.quantity = q))
    ∧ (∀ (db : Database) (now : Int) (s : Cin) (o : Order) (db1 : Database) (s1 : Cin),
        takeOrder db now s = some (o, db1, s1) →
        o.items.map (fun item => item.quantity)
            = quantityAnswers ((getline (s.drop 1)).2.length + 1)
                ⟨db.nextOrderId, (getline (s.drop 1)).1, now, [], 0, 0, 0, 0, "", false⟩ none
                (getline (s.drop 1)).2
        ∧ ∀ item ∈ o.items, INT_MIN ≤ item.quantity ∧ item.quantity ≤ INT_MAX) := by
  refine ⟨getValidInt_accept, getValidInt_again, ?_, ?_, ?_⟩
  · intro s
    unfold extractInt
    simp only
    generalize (if (takeSign (s.dropWhile isspace)).1 = true then
        -(digitsValue ((takeSign (s.dropWhile isspace)).2.takeWhile isdigit) : Int)
      else (digitsValue ((takeSign (s.dropWhile isspace)).2.takeWhile isdigit) : Int)) = v
    by_cases hempty : ((takeSign (s.dropWhile isspace)).2.takeWhile isdigit).isEmpty = true
    · rw [if_pos hempty]
      simp only [true_iff]
      exact Or.inl (List.isEmpty_iff.1 hempty)
    · rw [if_neg hempty]
      have hne : (takeSign (s.dropWhile isspace)).2.takeWhile isdigit ≠ [] := by
        intro hnil
        exact hempty (List.isEmpty_iff.2 hnil)
      by_cases hrange : INT_MIN ≤ v ∧ v ≤ INT_MAX
      · rw [if_pos hrange]
        simp only [reduceCtorEq, false_iff, not_or, not_not]
        exact ⟨hne, hrange⟩
      · rw [if_neg hrange]
        simp only [true_iff]
        exact Or.inr hrange
  · intro order addMore s choice s1 q s2 hchoice hlo hhi hq
    obtain ⟨m, hm⟩ := menu_getElem?_valid choice hlo hhi
    have hiff := menu_iceCream_iff choice m hlo hhi hm
    refine ⟨(getValidInt_some s1 q s2 hq).1, ?_, ?_, ?_⟩
    · intro h5 c s3 hc
      have hcat : m.category ≠ "Ice Cream" := by
        intro hc4
        have := hiff.1 hc4
        omega
      exact ⟨_, takeOrderStep_other order addMore s choice s1 m q s2 c s3
        hchoice hlo hhi hm hcat hq hc, rfl⟩
    · intro h4 a s3 b s4 c s5 ha hb hc
      exact ⟨_, takeOrderStep_iceCream order addMore s choice s1 m q s2 a s3 b s4 c s5
        hchoice hlo hhi hm (hiff.2 h4) hq ha hb hc, rfl⟩
    · intro r hr
      obtain ⟨q1, s21, details, c, hq1, hr1, _, _⟩ :=
        takeOrderStep_valid_some order addMore s choice s1 m hchoice hlo hhi hm r hr
      rw [hq] at hq1
      have hqq : q = q1 := (Prod.mk.inj (Option.some.inj hq1)).1
      exact ⟨⟨m.category, m.name, q1, m.price, details⟩, by rw [hr1], hqq.symm⟩
  · intro db now s o db1 s1 h
    unfold takeOrder at h
    simp only at h
    split at h
    · simp at h
    · rename_i order1 s2 hloop
      split at h
      · simp at h
      · rename_i order2 s3 hfin
        simp only [Option.some.injEq, Prod.mk.injEq] at h
        rw [← h.1, finishOrder_items _ _ _ _ hfin]
        constructor
        · have hq := takeOrderLoop_quantities _ _ _ _ _ _ hloop
          simpa [Database.getNextOrderId] using hq
        · exact takeOrderLoop_quantity_range _ _ _ _ _ _ hloop (by simp)

theorem takeOrder_quantity_witness :
    getValidInt ['0', '\n'] = some (0, ['\n'])
    ∧ getValidInt ['a', 'b', 'c', '\n', '-', '7', '\n'] = getValidInt ['-', '7', '\n']
    ∧ (∃ item, takeOrderStep ⟨1001, "Ali", 0, [], 0, 0, 0, 0, "", false⟩ none
          ['5', '\n', '-', '3', '\n', 'n', '\n']
        = some ({ (⟨1001, "Ali", 0, [], 0, 0, 0, 0, "", false⟩ : Order) with
                  items := [] ++ [item] }, some 'n', ['\n'])
      ∧ item.quantity = -3)
    ∧ (∃ o db1 s1, takeOrder Database.init 0
          ['\n', 'A', 'l', 'i', '\n', '5', '\n', '-', '3', '\n', 'y', '\n', '1', '\n', '0', '\n',
            '1', '\n', '7', '\n', 'n', '\n', 'n', '\n', '1', '\n'] = some (o, db1, s1)
      ∧ o.items.map (fun item => item.quantity) = [-3, 0]) := by
  refine ⟨takeOrder_quantity.1 _ 0 _ (by rfl),
    (takeOrder_quantity.2.1 ['a', 'b', 'c', '\n', '-', '7', '\n'] _ (by rfl)).trans (by rfl),
    ?_, ?_⟩
  · exact (takeOrder_quantity.2.2.2.1 ⟨1001, "Ali", 0, [], 0, 0, 0, 0, "", false⟩ none
      ['5', '\n', '-', '3', '\n', 'n', '\n'] 5 ['\n', '-', '3', '\n', 'n', '\n'] (-3)
      ['\n', 'n', '\n'] (by rfl) (by decide) (by decide) (by rfl)).2.1 (by decide)
      'n' ['\n'] (by rfl)
  · have htake : takeOrder Database.init 0
        ['\n', 'A', 'l', 'i', '\n', '5', '\n', '-', '3', '\n', 'y', '\n', '1', '\n', '0', '\n',
          '1', '\n', '7', '\n', 'n', '\n', 'n', '\n', '1', '\n']
        = (match finishOrder
              ⟨1001, "Ali", 0,
                [⟨"Shakes", "Chocolate Shake", -3, 250, []⟩,
                  ⟨"Ice Cream", "Chocolate Dream", 0, 100, ["Single Scoop", "No Topping"]⟩],
                0, 0, 0, 0, "", false⟩
              ['\n', 'n', '\n', '1', '\n'] with
            | none => none
            | some (order, s) => some (order, ⟨[], 1002⟩, s)) := by
      rfl
    cases hfin : finishOrder
        ⟨1001, "Ali", 0,
          [⟨"Shakes", "Chocolate Shake", -3, 250, []⟩,
            ⟨"Ice Cream", "Chocolate Dream", 0, 100, ["Single Scoop", "No Topping"]⟩],
          0, 0, 0, 0, "", false⟩
        ['\n', 'n', '\n', '1', '\n'] with
    | none =>
      have hd : extractChar ['\n', 'n', '\n', '1', '\n'] = some ('n', ['\n', '1', '\n']) := by rfl
      have hc : getValidInt ['\n', '1', '\n'] = some (1, ['\n']) := by rfl
      unfold finishOrder at hfin
      rw [askDonation_eq _ _ _ _ hd] at hfin
      simp only [selectPaymentMethod_eq _ _ _ _ hc] at hfin
      exact absurd hfin (by simp)
    | some os =>
      obtain ⟨o, s1⟩ := os
      rw [hfin] at htake
      exact ⟨o, _, s1, htake, (takeOrder_quantity.2.2.2.2 _ _ _ _ _ _ htake).1.trans (by rfl)⟩


/-- C10, as stated, fails: item 5, Chocolate Shake, offers the variants Small,
    Medium, Large, yet after its quantity the step asks for no variant. With
    the answers 5, 1, 2 the appended line has no label at all ("Medium" is
    not recorded) and the 2 is taken as the add-more answer. -/
theorem takeOrderStep_variant_counterexample :
    ¬ ∀ (order : Order) (addMore : Option Char) (s : Cin) (choice : Int) (s1 : Cin)
        (m : MenuItem) (q : Int) (s2 : Cin) (k : Int) (s3 : Cin) (r : Order × Option Char × Cin),
        getValidInt s = some (choice, s1) → menu[(choice - 1).toNat]? = some m →
        m.options ≠ [] → getValidInt s1 = some (q, s2) → getValidInt s2 = some (k, s3) →
        1 ≤ k → k ≤ (m.options.length : Int) → takeOrderStep order addMore s = some r →
        ∃ item, r.1.items = order.items ++ [item]
          ∧ m.options.getD (k - 1).toNat "" ∈ item.details := by
  intro h
  have h1 := h ⟨1001, "Ali", 0, [], 0, 0, 0, 0, "", false⟩ none
    ['5', '\n', '1', '\n', '2', '\n', 'n', '\n'] 5 ['\n', '1', '\n', '2', '\n', 'n', '\n']
    ⟨"Shakes", "Chocolate Shake", "Rich chocolate milkshake", 250, sizes⟩
    1 ['\n', '2', '\n', 'n', '\n'] 2 ['\n', 'n', '\n']
    (⟨1001, "Ali", 0, [⟨"Shakes", "Chocolate Shake", 1, 250, []⟩], 0, 0, 0, 0, "", false⟩,
      some '2', ['\n', 'n', '\n'])
    (by rfl) (by rfl) (by simp [sizes]) (by rfl) (by rfl) (by decide) (by decide) (by rfl)
  obtain ⟨item, hitems, hmem⟩ := h1
  simp only [List.nil_append, List.cons.injEq, and_true] at hitems
  rw [← hitems] at hmem
  simp at hmem

theorem scoops_filter (a b : Int) :
    (((if 0 < a ∧ a ≤ (scoops.length : Int) then [scoops.getD (a - 1).toNat ""] else [])
        ++ (if 0 < b ∧ b ≤ 7 then [toppings.getD (b - 1).toNat ""] else [])).filter
      (fun l => decide (l ∈ scoops)))
      = (if 0 < a ∧ a ≤ (scoops.length : Int) then [scoops.getD (a - 1).toNat ""] else []) := by
  have hlen : (scoops.length : Int) = 3 := rfl
  rw [hlen]
  by_cases ha : 0 < a ∧ a ≤ 3
  · by_cases hb : 0 < b ∧ b ≤ 7
    · rw [if_pos ha, if_pos hb]
      obtain ⟨ha1, ha2⟩ := ha
      obtain ⟨hb1, hb2⟩ := hb
      interval_cases a <;> interval_cases b <;> decide
    · rw [if_pos ha, if_neg hb]
      obtain ⟨ha1, ha2⟩ := ha
      interval_cases a <;> decide
  · by_cases hb : 0 < b ∧ b ≤ 7
    · rw [if_neg ha, if_pos hb]
      obtain ⟨hb1, hb2⟩ := hb
      interval_cases b <;> decide
    · rw [if_neg ha, if_neg hb]
      rfl

/-- C10, amended. Every catalogue item lists variants, but the step asks for
    a variant (and then a topping) only for the items of category "Ice
    Cream", selections 1 to 4. For those, an in-range size choice `a` records
    exactly one variant label, `options[a-1]`, and an out-of-range one records
    none; an in-range topping choice adds one topping label. For the items of
    the other categories, selections 5 to 9, nothing is asked and the line
    carries no label. The unit price is the catalogue price in every case. -/
theorem takeOrderStep_customization (order : Order) (addMore : Option Char) (s : Cin)
    (choice : Int) (s1 : Cin) (m : MenuItem) (q : Int) (s2 : Cin)
    (hchoice : getValidInt s = some (choice, s1)) (hlo : 1 ≤ choice) (hhi : choice ≤ 9)
    (hm : menu[(choice - 1).toNat]? = some m) (hq : getValidInt s1 = some (q, s2)) :
    m.options ≠ []
    ∧ (m.category = "Ice Cream" ↔ choice ≤ 4)
    ∧ (m.category ≠ "Ice Cream" → ∀ c s3, extractChar s2 = some (c, s3) →
        takeOrderStep order addMore s
          = some ({ order with items := order.items ++ [⟨m.category, m.name, q, m.price, []⟩] },
                  some c, s3))
    ∧ (m.category = "Ice Cream" → ∀ a s3 b s4 c s5,
        getValidInt s2 = some (a, s3) → getValidInt s3 = some (b, s4) →
        extractChar s4 = some (c, s5) →
        ∃ item, takeOrderStep order addMore s
              = some ({ order with items := order.items ++ [item] }, some c, s5)
          ∧ item.type = m.category ∧ item.name = m.name ∧ item.quantity = q
          ∧ item.price = m.price
          ∧ item.details
              = (if 0 < a ∧ a ≤ (m.options.length : Int) then
                  [m.options.getD (a - 1).toNat ""] else [])
                ++ (if 0 < b ∧ b ≤ 7 then [toppings.getD (b - 1).toNat ""] else [])
          ∧ item.details.filter (fun l => decide (l ∈ m.options))
              = (if 0 < a ∧ a ≤ (m.options.length : Int) then
                  [m.options.getD (a - 1).toNat ""] else [])) := by
  have hmem := menu_mem_of_getElem? _ m hm
  refine ⟨menu_options_ne_nil m hmem, menu_iceCream_iff choice m hlo hhi hm, ?_, ?_⟩
  · intro hcat c s3 hc
    exact takeOrderStep_other order addMore s choice s1 m q s2 c s3 hchoice hlo hhi hm hcat hq hc
  · intro hcat a s3 b s4 c s5 ha hb hc
    refine ⟨_, takeOrderStep_iceCream order addMore s choice s1 m q s2 a s3 b s4 c s5
      hchoice hlo hhi hm hcat hq ha hb hc, rfl, rfl, rfl, rfl, rfl, ?_⟩
    simp only
    rw [menu_iceCream_options m hmem hcat]
    exact scoops_filter a b

theorem takeOrderStep_customization_witness :
    (∃ item, takeOrderStep ⟨1001, "Ali", 0, [], 0, 0, 0, 0, "", false⟩ none
          ['3', '\n', '2', '\n', '2', '\n', '9', '\n', 'y', '\n']
        = some ({ (⟨1001, "Ali", 0, [], 0, 0, 0, 0, "", false⟩ : Order) with
                  items := [] ++ [item] }, some 'y', ['\n'])
      ∧ item.type = "Ice Cream" ∧ item.name = "Strawberry Fields" ∧ item.quantity = 2
      ∧ item.price = 120
      ∧ item.details = ["Double Scoop"]
      ∧ item.details.filter (fun l => decide (l ∈ scoops)) = ["Double Scoop"])
    ∧ takeOrderStep ⟨1001, "Ali", 0, [], 0, 0, 0, 0, "", false⟩ none
          ['8', '\n', '2', '\n', '2', '\n', 'n', '\n']
        = some (⟨1001, "Ali", 0, [⟨"Beverages", "Coffee", 2, 150, []⟩], 0, 0, 0, 0, "", false⟩,
            some '2', ['\n', 'n', '\n']) :=
  ⟨(takeOrderStep_customization ⟨1001, "Ali", 0, [], 0, 0, 0, 0, "", false⟩ none
      ['3', '\n', '2', '\n', '2', '\n', '9', '\n', 'y', '\n'] 3
      ['\n', '2', '\n', '2', '\n', '9', '\n', 'y', '\n']
      ⟨"Ice Cream", "Strawberry Fields", "Fresh strawberry ice cream", 120, scoops⟩
      2 ['\n', '2', '\n', '9', '\n', 'y', '\n']
      (by rfl) (by decide) (by decide) (by rfl) (by rfl)).2.2.2 rfl
      2 ['\n', '9', '\n', 'y', '\n'] 9 ['\n', 'y', '\n'] 'y' ['\n'] (by rfl) (by rfl) (by rfl),
   (takeOrderStep_customization ⟨1001, "Ali", 0, [], 0, 0, 0, 0, "", false⟩ none
      ['8', '\n', '2', '\n', '2', '\n', 'n', '\n'] 8
      ['\n', '2', '\n', '2', '\n', 'n', '\n']
      ⟨"Beverages", "Coffee", "Hot/Cold coffee", 150, ["Hot", "Cold"]⟩
      2 ['\n', '2', '\n', 'n', '\n']
      (by rfl) (by decide) (by decide) (by rfl) (by rfl)).2.2.1 (by decide)
      '2' ['\n', 'n', '\n'] (by rfl)⟩

/-! ## The loop of `takeOrder`: fuel -/

theorem takeOrderStep_progress (order : Order) (addMore : Option Char) (s : Cin)
    (r : Order × Option Char × Cin) (hr : takeOrderStep order addMore s = some r) :
    r.2.2.length < s.length := by
  obtain ⟨choice, s1, hchoice⟩ := takeOrderStep_reads order addMore s r hr
  have l1 := (getValidInt_some s choice s1 hchoice).2
  by_cases hbad : choice < 1 ∨ 9 < choice
  · rw [takeOrderStep_invalid order addMore s choice s1 hchoice hbad] at hr
    rw [← Option.some.inj hr]
    exact l1
  · have hlo : 1 ≤ choice := by omega
    have hhi : choice ≤ 9 := by omega
    obtain ⟨m, hm⟩ := menu_getElem?_valid choice hlo hhi
    obtain ⟨q, s2, details, c, hq, _, _, _, hlen⟩ :=
      takeOrderStep_valid_some order addMore s choice s1 m hchoice hlo hhi hm r hr
    have l2 := (getValidInt_some s1 q s2 hq).2
    omega

theorem takeOrderLoop_fuel_eq (fuel1 fuel2 : Nat) (order : Order) (addMore : Option Char)
    (s : Cin) (h1 : s.length < fuel1) (h2 : s.length < fuel2) :
    takeOrderLoop fuel1 order addMore s = takeOrderLoop fuel2 order addMore s := by
  induction fuel1 generalizing fuel2 order addMore s with
  | zero => omega
  | succ fuel1 ih =>
    cases fuel2 with
    | zero => omega
    | succ fuel2 =>
      unfold takeOrderLoop
      cases hstep : takeOrderStep order addMore s with
      | none => rfl
      | some r =>
        obtain ⟨order1, am1, s1⟩ := r
        have hlt := takeOrderStep_progress order addMore s _ hstep
        simp only at hlt
        cases am1 with
        | none => rfl
        | some c =>
          simp only
          by_cases hy : c = 'y' ∨ c = 'Y'
          · rw [if_pos hy, if_pos hy]
            exact ih fuel2 order1 (some c) s1 (by omega) (by omega)
          · rw [if_neg hy, if_neg hy]

/-- The passes that `takeOrder` allows its loop are enough: more fuel gives the
    same result, so `none` always means that the loop itself never returns. -/
theorem takeOrderLoop_fuel (fuel : Nat) (order : Order) (addMore : Option Char) (s : Cin)
    (hfuel : s.length < fuel) :
    takeOrderLoop fuel order addMore s = takeOrderLoop (s.length + 1) order addMore s :=
  takeOrderLoop_fuel_eq fuel (s.length + 1) order addMore s hfuel (Nat.lt_succ_self _)

end RukaabCafe
